import Mathlib

/-!
Verification development for the QEx-style quad-mesh extractor
(`src/thirdparty/libQEx/src/MeshExtractorT.cc`).

The C++ core works on UV coordinates stored as `double` and manipulated
through an exact geometry kernel; we embed UV coordinates as rational
numbers (`ℚ`), which model the exact predicates faithfully.  Machine
integers of the source become `ℤ`/`ℕ`.  The transition-function type `TF`
and the various sentinel constants live in the (absent) header
`MeshExtractorT.hh`; they are modelled from the specification (spec §3:
a transition function is a triple `(r, tu, tv)` with `r ∈ {0,1,2,3}`
acting as rotation by `r·90°` followed by translation).
-/

set_option maxHeartbeats 1000000

namespace QEx

/-! ## Transition functions

Modelled from the spec: `TransitionFunction (TF)` is a triple
`(r, tu, tv)` with rotation `r ∈ {0,1,2,3}` acting on a UV point by
rotation by `r·90°` about the origin followed by translation by
`(tu, tv)`; composition is function composition, identity is `(0,0,0)`,
inverses are exact.  (The concrete C++ struct is declared in the header
`MeshExtractorT.hh`, which is not part of the sources; all uses in
`MeshExtractorT.cc` go through the interface described in spec §3.) -/

structure TF where
  r : ℤ
  tu : ℤ
  tv : ℤ
deriving DecidableEq, Repr

/-- Rotation by `r·90°` of a rational point (action of `i^r` on the plane). -/
def rotQ (r : ℤ) (p : ℚ × ℚ) : ℚ × ℚ :=
  if r % 4 = 0 then p
  else if r % 4 = 1 then (-p.2, p.1)
  else if r % 4 = 2 then (-p.1, -p.2)
  else (p.2, -p.1)

/-- Rotation by `r·90°` of an integer point. -/
def rotZ (r : ℤ) (p : ℤ × ℤ) : ℤ × ℤ :=
  if r % 4 = 0 then p
  else if r % 4 = 1 then (-p.2, p.1)
  else if r % 4 = 2 then (-p.1, -p.2)
  else (p.2, -p.1)

namespace TF

/-- `TF::IDENTITY` / `TF::identity()`: the identity transition `(0,0,0)`. -/
def identity : TF := ⟨0, 0, 0⟩

/-- `TF::transform_point`: rotate by `r·90°`, then translate by `(tu, tv)`. -/
def apply (f : TF) (p : ℚ × ℚ) : ℚ × ℚ :=
  let q := rotQ f.r p
  (q.1 + f.tu, q.2 + f.tv)

/-- `TF::operator*`: composition (left factor applied second), with the
rotation kept normalized in `{0,1,2,3}` as spec §3 requires. -/
def comp (f g : TF) : TF :=
  let t := rotZ f.r (g.tu, g.tv)
  ⟨(f.r + g.r) % 4, t.1 + f.tu, t.2 + f.tv⟩

/-- `TF::inverse`: exact inverse. -/
def inverse (f : TF) : TF :=
  let t := rotZ (-f.r) (f.tu, f.tv)
  ⟨(-f.r) % 4, -t.1, -t.2⟩

end TF

/-! ## Rounding

`ROUND_QME(x) = (x)<0 ? int((x)-0.5) : int((x)+0.5)` (MeshExtractorT.cc
line 42); the C cast to `int` truncates toward zero. -/

/-- `ROUND_QME`: round half away from zero. -/
def roundQME (x : ℚ) : ℤ :=
  if x < 0 then ⌈x - 1/2⌉ else ⌊x + 1/2⌋

/-! ## Exact 2D geometry kernel

Modelled from the spec: the geometry kernel is an external collaborator
(spec §6) providing 2D points, segments, triangles, bounding boxes and the
exact predicates `orientation`, `has_on`, `has_on_bounded_side`,
`intersects`, `boundedness`.  Points are rational pairs. -/

/-- Raw 2×2 determinant of the vectors `b − a` and `c − a`. -/
def det2 (a b c : ℚ × ℚ) : ℚ :=
  (b.1 - a.1) * (c.2 - a.2) - (b.2 - a.2) * (c.1 - a.1)

/-- Sign of a rational number as an integer in `{-1, 0, 1}`. -/
def qsign (x : ℚ) : ℤ :=
  if 0 < x then 1 else if x < 0 then -1 else 0

/-- `orient2d` on three points: `1` = counterclockwise, `-1` = clockwise,
`0` = collinear. -/
def orient2dP (a b c : ℚ × ℚ) : ℤ := qsign (det2 a b c)

/-- `orient2d` on two vectors (sign of the cross product). -/
def orient2dV (v w : ℚ × ℚ) : ℤ := qsign (v.1 * w.2 - v.2 * w.1)

/-- `Triangle_2::orientation()` for the triangle `(p0, p1, p2)`. -/
def triOrientation (p0 p1 p2 : ℚ × ℚ) : ℤ := orient2dP p0 p1 p2

/-- `Triangle_2::has_on_bounded_side`: the query point lies strictly inside
the (non-degenerate) triangle, i.e. all three edge orientations agree with
the triangle's orientation. -/
def hasOnBoundedSide (p0 p1 p2 q : ℚ × ℚ) : Bool :=
  let ori := triOrientation p0 p1 p2
  ori ≠ 0 ∧ orient2dP p0 p1 q = ori ∧ orient2dP p1 p2 q = ori ∧ orient2dP p2 p0 q = ori

/-- `Segment_2::has_on`: the query point is collinear with the segment and
within its bounding box. -/
def segHasOn (a b q : ℚ × ℚ) : Bool :=
  orient2dP a b q = 0 ∧ min a.1 b.1 ≤ q.1 ∧ q.1 ≤ max a.1 b.1 ∧
    min a.2 b.2 ≤ q.2 ∧ q.2 ≤ max a.2 b.2

/-- `BOUNDEDNESS` classification of a point against a triangle:
`0` = on bounded side, `1` = on boundary, `2` = on unbounded side. -/
def boundedness (p0 p1 p2 q : ℚ × ℚ) : ℕ :=
  let ori := triOrientation p0 p1 p2
  if ori = 0 then
    if segHasOn p0 p1 q ∨ segHasOn p1 p2 q ∨ segHasOn p2 p0 q then 1 else 2
  else
    let s0 := orient2dP p0 p1 q
    let s1 := orient2dP p1 p2 q
    let s2 := orient2dP p2 p0 q
    if s0 = ori ∧ s1 = ori ∧ s2 = ori then 0
    else if (s0 = ori ∨ s0 = 0) ∧ (s1 = ori ∨ s1 = 0) ∧ (s2 = ori ∨ s2 = 0) then 1
    else 2

/-- `Segment_2::intersects` via the classical exact predicate: proper
crossing, or an endpoint lying on the other segment. -/
def segIntersects (a b c d : ℚ × ℚ) : Bool :=
  let d1 := orient2dP c d a
  let d2 := orient2dP c d b
  let d3 := orient2dP a b c
  let d4 := orient2dP a b d
  (((d1 = 1 ∧ d2 = -1) ∨ (d1 = -1 ∧ d2 = 1)) ∧
   ((d3 = 1 ∧ d4 = -1) ∨ (d3 = -1 ∧ d4 = 1))) ∨
  segHasOn c d a ∨ segHasOn c d b ∨ segHasOn a b c ∨ segHasOn a b d

/-! ## Claim C4: OnFace gvertex generation (`generate_vertices`, face pass)

`MeshExtractorT.cc` lines 426–480: for each face, build the UV triangle;
if its orientation is nonzero, integer-scan the bounding box
`[⌈xmin⌉, ⌊xmax⌋] × [⌈ymin⌉, ⌊ymax⌋]` and create an OnFace gvertex at every
integer lattice point with `has_on_bounded_side`. -/

/-- Whether the face pass of `generate_vertices` creates an OnFace gvertex
at the integer lattice point `(x, y)` for the UV triangle `(p0, p1, p2)`. -/
def onFaceGvertexAt (p0 p1 p2 : ℚ × ℚ) (x y : ℤ) : Bool :=
  let xmin := min p0.1 (min p1.1 p2.1)
  let xmax := max p0.1 (max p1.1 p2.1)
  let ymin := min p0.2 (min p1.2 p2.2)
  let ymax := max p0.2 (max p1.2 p2.2)
  triOrientation p0 p1 p2 ≠ 0 ∧
    ⌈xmin⌉ ≤ x ∧ x ≤ ⌊xmax⌋ ∧ ⌈ymin⌉ ≤ y ∧ y ≤ ⌊ymax⌋ ∧
    hasOnBoundedSide p0 p1 p2 ((x : ℚ), (y : ℚ))

/-! ## Claims C3/C6/C9: `consistent_truncation` (lines 205–316)

The UV vector is embedded as a total function from halfedge index to
rational UV pair.  The input triangle mesh is embedded as the data that
`consistent_truncation` actually reads: per-vertex lists of incoming
halfedges in circulator order (the first entry is the anchor,
`*cvih_iter(v)`), per-halfedge boundary flags and transitions, the
opposite-halfedge map, and the edge table with status flags.

The bit-clearing trick of lines 252–262 adds and subtracts a power of two
`max_v`; over exact rationals `(x + S) - S = x` for every `S`, so the value
of `max_v` (computed in the source from `log`/`pow` over doubles) is kept
as an uninterpreted per-vertex rational `sval`. -/

/-- One input vertex as seen by `consistent_truncation`: its incoming
halfedges in circulator order (head = anchor halfedge `*cvih_iter(v)`),
its boundary status, and the value `max_v` of lines 252–254. -/
structure VertexEntry where
  incoming : List ℕ
  isBoundaryV : Bool
  sval : ℚ

/-- One input edge as seen by the boundary snap (lines 210–225). -/
structure TruncEdge where
  heh0 : ℕ
  heh1 : ℕ
  isBoundaryE : Bool
  selOrFeat : Bool

/-- The triangle-mesh data read by `consistent_truncation`. -/
structure TruncMesh where
  vertices : List VertexEntry
  edges : List TruncEdge
  hasEdgeStatus : Bool
  heBoundary : ℕ → Bool
  opp : ℕ → ℕ
  heTF : ℕ → TF

/-- A UV coordinate vector, addressed by halfedge index. -/
def UV : Type := ℕ → ℚ × ℚ

/-- Pointwise update of a UV vector. -/
def updUV (uv : UV) (h : ℕ) (p : ℚ × ℚ) : UV :=
  fun k => if k = h then p else uv k

/-- The per-axis snap of lines 216–221: if both coordinates are within
`1e-4` of their rounded integers, replace both by those integers. -/
def snapPairQ (a b : ℚ) : ℚ × ℚ :=
  if |a - (roundQME a : ℚ)| < 1/10000 ∧ |b - (roundQME b : ℚ)| < 1/10000 then
    ((roundQME a : ℚ), (roundQME b : ℚ))
  else (a, b)

/-- Processing of one edge by the boundary-snap loop (lines 210–225):
boundary edges flagged selected or feature get both end-UVs snapped
axis-by-axis. -/
def snapEdgeF (uv : UV) (e : TruncEdge) : UV :=
  if e.isBoundaryE && e.selOrFeat then
    let a := uv e.heh0
    let b := uv e.heh1
    let u := snapPairQ a.1 b.1
    let v := snapPairQ a.2 b.2
    updUV (updUV uv e.heh0 (u.1, v.1)) e.heh1 (u.2, v.2)
  else uv

/-- The whole boundary-snap pass (lines 208–226), guarded by
`has_edge_status`. -/
def boundarySnap (m : TruncMesh) (uv : UV) : UV :=
  if m.hasEdgeStatus then m.edges.foldl snapEdgeF uv else uv

/-- `transition(VH)` (lines 1947–1972): composition of the transitions of
the opposite halfedges of the incoming halfedges around the vertex;
identity for boundary vertices. -/
def vertexTransition (m : TruncMesh) (v : VertexEntry) : TF :=
  if v.isBoundaryV then TF.identity
  else
    match v.incoming with
    | [] => TF.identity
    | a :: rest =>
        (m.heTF (m.opp a)).comp
          (rest.foldl (fun acc h => (m.heTF (m.opp h)).comp acc) TF.identity)

/-- The closed-form fixed point assigned by the switch of lines 271–283
for a singular vertex transition with rotation `r ∈ {1,2,3}`. -/
def fixedPointUV (t : TF) : ℚ × ℚ :=
  if t.r = 1 then (((t.tu : ℚ) - t.tv) / 2, ((t.tu : ℚ) + t.tv) / 2)
  else if t.r = 2 then ((t.tu : ℚ) / 2, (t.tv : ℚ) / 2)
  else if t.r = 3 then (((t.tu : ℚ) + t.tv) / 2, ((t.tv : ℚ) - t.tu) / 2)
  else (0, 0)

/-- The anchor value computed by lines 252–292: bit clearing (exact no-op
written as `(x + S) - S`), then, for interior vertices with singular
vertex transition, the closed-form fixed point; the `default` case of the
switch only reports and leaves the value unchanged. -/
def anchorVal (m : TruncMesh) (v : VertexEntry) (a : ℚ × ℚ) : ℚ × ℚ :=
  let a1 : ℚ × ℚ := ((a.1 + v.sval) - v.sval, (a.2 + v.sval) - v.sval)
  let vt := vertexTransition m v
  if !v.isBoundaryV && vt ≠ TF.identity then
    if vt.r = 1 ∨ vt.r = 2 ∨ vt.r = 3 then fixedPointUV vt else a1
  else a1

/-- The one-ring propagation of lines 294–310: walk the incoming halfedges
after the anchor, apply the transition of the opposite halfedge to the
running value, and record the write; boundary halfedges are skipped. -/
def propagateF (m : TruncMesh) : List ℕ → ℚ × ℚ → List (ℕ × (ℚ × ℚ))
  | [], _ => []
  | h :: t, cur =>
      if m.heBoundary h then propagateF m t cur
      else
        let cur' := (m.heTF (m.opp h)).apply cur
        (h, cur') :: propagateF m t cur'

/-- Apply a list of writes to a UV vector, in order. -/
def applyWrites : List (ℕ × (ℚ × ℚ)) → UV → UV
  | [], uv => uv
  | (h, p) :: t, uv => applyWrites t (updUV uv h p)

/-- The writes performed for one vertex by lines 229–315, as a function of
the anchor's current value. -/
def vertexWrites (m : TruncMesh) (v : VertexEntry) (x : ℚ × ℚ) : List (ℕ × (ℚ × ℚ)) :=
  match v.incoming with
  | [] => []
  | a :: rest =>
      let av := anchorVal m v x
      (a, av) :: propagateF m rest av

/-- Processing of one vertex by the loop of lines 229–315. -/
def processVertex (m : TruncMesh) (uv : UV) (v : VertexEntry) : UV :=
  match v.incoming with
  | [] => uv
  | a :: _ => applyWrites (vertexWrites m v (uv a)) uv

/-- The per-vertex canonicalization pass (lines 229–315). -/
def canonicalize (m : TruncMesh) (uv : UV) : UV :=
  m.vertices.foldl (processVertex m) uv

/-- `consistent_truncation` (lines 205–316): boundary snap followed by
per-vertex canonicalization. -/
def consistent_truncation (m : TruncMesh) (uv : UV) : UV :=
  canonicalize m (boundarySnap m uv)

/-- The halfedges of selected/feature boundary edges: the coordinates the
snap pass may modify. -/
def relevantSnapHe (m : TruncMesh) (h : ℕ) : Prop :=
  ∃ e ∈ m.edges, e.isBoundaryE = true ∧ e.selOrFeat = true ∧ (h = e.heh0 ∨ h = e.heh1)

/-! ## Claim C5: `extract_transition_functions` (lines 172–199)

Per edge the source reads four UV corners as complex numbers, derives the
rotation `r = ROUND_QME(2·Im(log((r0−r1)/(l0−l1)))/π)` — a floating-point
computation kept here as the uninterpreted integer `rRaw` — normalizes it
with `r = ((r % 4) + 4) % 4` (C++ `%` truncates, i.e. `Int.tmod`), and
closes the translation `t = r0 − i^r·l0` exactly. -/

/-- The data of one edge as read by `extract_transition_functions`. -/
structure EdgeTFInput where
  isBoundary : Bool
  l0 : ℚ × ℚ
  rRaw : ℤ
  r0 : ℚ × ℚ

/-- The transition function stored for one edge by
`extract_transition_functions`: `(0,0,0)` for boundary edges, otherwise
the normalized rotation with the rounded translation `r0 − i^r·l0`. -/
def extract_transition_function_edge (e : EdgeTFInput) : TF :=
  if e.isBoundary then TF.identity
  else
    let r := (Int.tmod e.rRaw 4 + 4).tmod 4
    let rl := rotQ r e.l0
    TF.mk r (roundQME (e.r0.1 - rl.1)) (roundQME (e.r0.2 - rl.2))

/-! ## Claim C7: `construct_local_edge_information_vertex` (lines 804–924)

The incoming-halfedge traversal is embedded as a list of sectors (one per
non-boundary incoming halfedge, in traversal order); each sector carries
the three triangle corner UVs `uv0, uv1, uv2`, the flag
`is_left_opp_boundary` and the face handle.  The expected LEI count uses
the supplied external valence when present, otherwise
`ROUND_QME(pos_angleSum / (π/2))` — a transcendental float computation
kept as the uninterpreted integer `roundNinety`. -/

/-- One sector of the incoming-halfedge traversal of lines 824–899. -/
structure SectorInput where
  uv0 : ℚ × ℚ
  uv1 : ℚ × ℚ
  uv2 : ℚ × ℚ
  isLeftOppBoundary : Bool
  fh : ℕ

/-- A freshly constructed `LocalEdgeInfo(fh, uv_from, uv_intended_to)`. -/
structure VLei where
  fh : ℕ
  uv_from : ℚ × ℚ
  uv_intended_to : ℚ × ℚ
deriving DecidableEq

/-- The cartesian directions `du, dv, −du, −dv` (constructor, lines
159–165). -/
def cartDirs : List (ℚ × ℚ) := [(1, 0), (0, 1), (-1, 0), (0, -1)]

/-- The per-sector direction filter of lines 862–897: test each cartesian
direction against the sector (on left edge opening to boundary, on right
edge, or strictly inside), track the split point `middleEl`, rotate the
valid run to the front, and reverse it if the sector is negatively
oriented. -/
def sectorLeis (s : SectorInput) : List VLei :=
  let ori := triOrientation s.uv0 s.uv1 s.uv2
  let sl : ℚ × ℚ := (s.uv2.1 - s.uv0.1, s.uv2.2 - s.uv0.2)
  let sr : ℚ × ℚ := (s.uv1.1 - s.uv0.1, s.uv1.2 - s.uv0.2)
  let step : List VLei × ℕ → ℚ × ℚ → List VLei × ℕ := fun st d =>
    let ori1 := orient2dV sr d
    let ori2 := orient2dV d sl
    let lei : VLei := ⟨s.fh, s.uv0, (s.uv0.1 + d.1, s.uv0.2 + d.2)⟩
    if s.isLeftOppBoundary ∧ ori2 = 0 ∧ d.1 * sl.1 + d.2 * sl.2 > 0 then
      (st.1 ++ [lei], st.2)
    else if ori1 = 0 ∧ sr.1 * d.1 + sr.2 * d.2 > 0 then
      (st.1 ++ [lei], st.2)
    else if ori1 = ori ∧ ori2 = ori then
      (st.1 ++ [lei], st.2)
    else
      (st.1, st.1.length)
  let res := cartDirs.foldl step ([], 0)
  let rotated :=
    if res.2 ≠ 0 ∧ res.2 < res.1.length then
      res.1.drop res.2 ++ res.1.take res.2
    else res.1
  if ori = -1 then rotated.reverse else rotated

/-- `construct_local_edge_information_vertex`, reduced to the data that
determines `missing_leis` (lines 906–922): the LEIs built from the
sectors, the expected count (external valence if supplied, otherwise the
rounded angle-sum quotient), with `missing_leis` forced to `0` for
boundary gvertices. -/
def construct_local_edge_information_vertex (sectors : List SectorInput)
    (externalValence : Option ℕ) (roundNinety : ℤ) (isBoundary : Bool) :
    List VLei × ℤ :=
  let les := sectors.foldl (fun acc s => acc ++ sectorLeis s) []
  let expected : ℤ :=
    match externalValence with
    | some k => (k : ℤ)
    | none => roundNinety
  let missing := expected - (les.length : ℤ)
  (les, if isBoundary then 0 else missing)

/-! ## Gvertex / LocalEdgeInfo state

`GridVertex` owns an ordered list of `LocalEdgeInfo` slots; gvertices
reference each other by index into the single gvertex vector (spec §3).
Sentinel values for `connected_to_idx` are modelled from the spec
(`LECI_Connected_Thresh` is `0`; the reserved sentinels are negative). -/

/-- `LocalEdgeInfo` (spec §3): one outgoing edge slot at a gvertex. -/
structure LEIC where
  fh_from : ℕ
  uv_from : ℚ × ℚ
  uv_intended_to : ℚ × ℚ
  uv_to : ℚ × ℚ
  connected_to_idx : ℤ
  orientation_idx : ℤ
  accumulated_tf : TF
  halfedgeIndex : ℤ
  face_constructed : Bool
deriving DecidableEq

instance : Inhabited LEIC :=
  ⟨⟨0, (0, 0), (0, 0), (0, 0), -1, -1, TF.identity, -1, false⟩⟩

/-- `LECI_No_Connection` sentinel (modelled from the spec; any value below
the connected threshold `0`). -/
def LECI_No_Connection : ℤ := -2

/-- A gvertex: its type (`0` = OnFace, `1` = OnEdge, `2` = OnVertex), its
anchor halfedge, its canonical UV position and its local edge slots. -/
structure GVC where
  gtype : ℕ
  heh : ℕ
  position_uv : ℚ × ℚ
  local_edges : List LEIC
deriving DecidableEq

instance : Inhabited GVC := ⟨⟨0, 0, (0, 0), []⟩⟩

/-- Gvertex lookup by index. -/
def getGv (gvs : List GVC) (i : ℕ) : GVC := gvs.getD i default

/-- LEI lookup by (gvertex, slot) index pair. -/
def getLei (gvs : List GVC) (i j : ℕ) : LEIC :=
  (getGv gvs i).local_edges.getD j default

/-- Replace the LEI at `(i, j)` by `f` applied to it. -/
def updateLei (gvs : List GVC) (i j : ℕ) (f : LEIC → LEIC) : List GVC :=
  gvs.set i { getGv gvs i with
    local_edges := (getGv gvs i).local_edges.set j (f (getLei gvs i j)) }

/-- Insert an LEI at position `k` of gvertex `i`'s local edge sequence. -/
def insertLeiAt (gvs : List GVC) (i k : ℕ) (lei : LEIC) : List GVC :=
  gvs.set i { getGv gvs i with
    local_edges :=
      (getGv gvs i).local_edges.take k ++ lei :: (getGv gvs i).local_edges.drop k }

/-- `GridVertex::local_edge(i)` wraps its argument modulo the valence
(spec §4.8: index `j'−1 (mod peer's valence)`). -/
def wrapIdx (len : ℕ) (i : ℤ) : ℕ :=
  if len = 0 then 0 else ((i % (len : ℤ) + len) % len).toNat

/-- `LocalEdgeInfo::isUnconnectedOrSignal` — no real peer recorded
(modelled from the spec: a value `≥` the connected threshold `0` means a
real peer index). -/
def isUnconnectedOrSignal (lei : LEIC) : Bool := lei.connected_to_idx < 0

/-- `LocalEdgeInfo::completeInformation(idx, ori, uv_to, tf)` (modelled
from the spec: stores the peer index, the reciprocal slot index, the
destination UV and the accumulated transition). -/
def completeInfo (c o : ℤ) (uvTo : ℚ × ℚ) (tf : TF) (lei : LEIC) : LEIC :=
  { lei with connected_to_idx := c, orientation_idx := o, uv_to := uvTo,
             accumulated_tf := tf }

/-! ## Claim C1 (part 1): the connector's reciprocal write
(`generate_connections`, lines 1102–1164)

When `find_path` returns a found peer `(c, o)` with accumulated transition
`acc`, the result is applied to the traced LEI `(i, j)`, and — if the peer
slot is still unconnected — the peer slot is completed with the reverse
connection `(i, j)` and the transition
`(intraPeer⁻¹ ∘ acc ∘ intraSelf⁻¹)⁻¹`, where `intraPeer` and `intraSelf`
are the two `intra_gv_transition` values of lines 1127–1133.  If the peer
slot is taken, the found connection is cleared to `LECI_No_Connection`
(lines 1147–1160). -/

/-- The success-path state update of `generate_connections` for one traced
LEI (lines 1108–1161). -/
def generate_connections_step (gvs : List GVC) (i j c o : ℕ) (uvTo : ℚ × ℚ)
    (acc intraPeer intraSelf : TF) : List GVC :=
  let gvs1 := updateLei gvs i j (completeInfo (c : ℤ) (o : ℤ) uvTo acc)
  if isUnconnectedOrSignal (getLei gvs1 c o) then
    let fwd := (getLei gvs1 i j).accumulated_tf
    let reverse0 := intraPeer.inverse.comp (fwd.comp intraSelf.inverse)
    let opposite_to := reverse0.apply (getGv gvs1 i).position_uv
    updateLei gvs1 c o (completeInfo (i : ℤ) (j : ℤ) opposite_to reverse0.inverse)
  else
    updateLei gvs1 i j (fun lei => { lei with connected_to_idx := LECI_No_Connection })

/-! ## Claim C1 (part 2): the fan-repair insertion
(`try_connect_incomplete_gvertices`, lines 1019–1076)

At the moment the face cycle returns to the pivot UV, a matched LEI pair
is inserted: one into the start gvertex `s` right after the traced LEI at
index `a`, one into the peer gvertex `n` right before the incoming LEI at
index `q`.  All already-connected LEIs whose positions shift have their
peers' `orientation_idx` incremented first
(`increment_opposite_connected_to_idx`, lines 929–938).  The transitions
written are
`new_in = (P ∘ Q⁻¹ ∘ acc⁻¹)⁻¹` and `new_out = (R⁻¹ ∘ acc ∘ S⁻¹)⁻¹`
where `P, Q, R, S` are the four `intra_gv_transition` values of lines
1034–1045 and `acc` is the accumulated transition of the walk. -/

/-- One step of `increment_opposite_connected_to_idx`: if the LEI at
`(s, k)` is connected, bump its peer's reciprocal `orientation_idx`. -/
def incOppOne (gvs : List GVC) (s k : ℕ) : List GVC :=
  let lei := getLei gvs s k
  if lei.connected_to_idx ≥ 0 then
    let c := lei.connected_to_idx.toNat
    let t := wrapIdx (getGv gvs c).local_edges.length lei.orientation_idx
    updateLei gvs c t (fun l => { l with orientation_idx := l.orientation_idx + 1 })
  else gvs

/-- `increment_opposite_connected_to_idx` over the slots of gvertex `s`
from position `start` to the end of its local edge list. -/
def incrementOppRange (gvs : List GVC) (s start : ℕ) : List GVC :=
  (List.range' start ((getGv gvs s).local_edges.length - start)).foldl
    (fun acc k => incOppOne acc s k) gvs

/-- The insertion event of `try_connect_incomplete_gvertices` (lines
1022–1076): `s` = start gvertex, `a` = index of the traced LEI in `s`,
`n` = peer gvertex, `q` = index of the incoming LEI in `n`; `acc` is the
walk's accumulated transition and `P, Q, R, S'` the four
`intra_gv_transition` values. -/
def try_connect_insert (gvs : List GVC) (s a n q : ℕ)
    (acc P Q R S' : TF) : List GVC :=
  let oldStart := getLei gvs s a
  let oldNextIn := getLei gvs n q
  let gvs1 := incrementOppRange gvs s (a + 1)
  let gvs2 := incrementOppRange gvs1 n q
  let newIn0 : LEIC :=
    ⟨oldStart.fh_from, oldStart.uv_from, oldStart.uv_from, (0, 0), -1, -1,
      TF.identity, -1, false⟩
  let newOut0 : LEIC :=
    ⟨oldNextIn.fh_from, oldNextIn.uv_from, oldNextIn.uv_from, (0, 0), -1, -1,
      TF.identity, -1, false⟩
  let gvs3 := insertLeiAt gvs2 s (a + 1) newIn0
  let gvs4 := insertLeiAt gvs3 n q newOut0
  let newInTf := (P.comp (Q.inverse.comp acc.inverse)).inverse
  let newOutTf := (R.inverse.comp (acc.comp S'.inverse)).inverse
  let gvs5 := updateLei gvs4 s (a + 1) (completeInfo (n : ℤ) (q : ℤ) oldStart.uv_from newInTf)
  updateLei gvs5 n q (completeInfo (s : ℤ) ((a : ℤ) + 1) oldNextIn.uv_from newOutTf)

/-! ## Claim C10: the face-assembly cycle walk
(`generate_faces_and_store_quadmesh`, lines 1720–1856)

Starting from `(i, j)`, repeatedly mark the current LEI as
`face_constructed`, record the gvertex, and follow the connection turning
right (`orientation_idx − 1`); the loop is capped at 100 iterations, and a
face candidate is produced only when the walk returns to the start
gvertex with more than two collected vertices. -/

/-- The cycle walk of lines 1733–1856 (fuel = remaining iterations of the
`k < 100` loop); returns the collected vertex list when a face is
realized, together with the updated gvertex state. -/
def faceWalkAux (gvs : List GVC) (i : ℕ) :
    ℕ → ℤ → ℤ → List ℕ → Option (List ℕ) × List GVC
  | 0, _, _, _ => (none, gvs)
  | fuel + 1, cur, ori, acc =>
      if 0 ≤ cur then
        if cur = (i : ℤ) ∧ acc ≠ [] then
          if 2 < acc.length then (some acc, gvs) else (none, gvs)
        else
          let c := cur.toNat
          let oIdx := wrapIdx (getGv gvs c).local_edges.length ori
          let lei := getLei gvs c oIdx
          if lei.face_constructed then (none, gvs)
          else
            let gvs' := updateLei gvs c oIdx (fun l => { l with face_constructed := true })
            faceWalkAux gvs' i fuel lei.connected_to_idx (lei.orientation_idx - 1)
              (acc ++ [c])
      else (none, gvs)

/-- The face candidate walk started at `(i, j)` with the source's cap of
100 iterations. -/
def faceWalk (gvs : List GVC) (i j : ℕ) : Option (List ℕ) × List GVC :=
  faceWalkAux gvs i 100 (i : ℤ) (j : ℤ) []

/-! ## Claim C2: manifold-safe `add_face` (lines 2102–2210)

The output polygonal mesh is embedded as a halfedge soup: halfedges are
allocated in opposite pairs (`2k`, `2k+1`), each carrying its target
vertex, an optional incident face, and next/prev links; vertices (one per
gvertex) carry an optional outgoing halfedge.  The spec §4.8/§6 operations
`new_face`, `new_edge`, `opposite_halfedge_handle`,
`set_next_halfedge_handle`, `set_face_handle`, `set_halfedge_handle` and
`adjust_outgoing_halfedge` are modelled over this state. -/

/-- A halfedge of the output mesh: target vertex, incident face (`-1`
invalid), next and prev links (`-1` invalid). -/
structure QHe where
  toV : ℕ
  face : ℤ
  nxt : ℤ
  prv : ℤ
deriving DecidableEq

instance : Inhabited QHe := ⟨⟨0, -1, -1, -1⟩⟩

/-- The output polygonal mesh state. -/
structure QMesh where
  hes : List QHe
  nFaces : ℕ
  faceHe : List ℤ
  vertHe : List ℤ
deriving DecidableEq

/-- `opposite_halfedge_handle`: halfedges are allocated in pairs. -/
def oppHe (h : ℕ) : ℕ := if h % 2 = 0 then h + 1 else h - 1

/-- `face_handle(halfedge_handle(h))`, `-1` when there is no face. -/
def qheFace (qm : QMesh) (h : ℤ) : ℤ :=
  if h < 0 then -1 else (qm.hes.getD h.toNat default).face

/-- `new_edge(from, to)`: allocate a fresh opposite halfedge pair,
returning the mesh and the index of the first halfedge. -/
def qNewEdge (qm : QMesh) (fromV toV : ℕ) : QMesh × ℕ :=
  ({ qm with hes := qm.hes ++ [⟨toV, -1, -1, -1⟩, ⟨fromV, -1, -1, -1⟩] },
   qm.hes.length)

/-- `set_next_halfedge_handle(a, b)` (also records the prev link). -/
def qSetNext (qm : QMesh) (a b : ℕ) : QMesh :=
  let hes1 := qm.hes.set a { qm.hes.getD a default with nxt := (b : ℤ) }
  { qm with hes := hes1.set b { hes1.getD b default with prv := (a : ℤ) } }

/-- `set_face_handle(h, f)`. -/
def qSetFace (qm : QMesh) (h : ℕ) (f : ℤ) : QMesh :=
  { qm with hes := qm.hes.set h { qm.hes.getD h default with face := f } }

/-- `set_halfedge_handle(v, h)` on a vertex. -/
def qSetVertHe (qm : QMesh) (v : ℕ) (h : ℤ) : QMesh :=
  { qm with vertHe := qm.vertHe.set v h }

/-- `from_vertex_handle(h)`: the target vertex of the opposite halfedge. -/
def qFromV (qm : QMesh) (h : ℕ) : ℕ := (qm.hes.getD (oppHe h) default).toV

/-- `adjust_outgoing_halfedge(v)`: point the vertex at a boundary outgoing
halfedge when one exists (OpenMesh invariant maintenance). -/
def qAdjustOutgoing (qm : QMesh) (v : ℕ) : QMesh :=
  match (List.range qm.hes.length).find? (fun h =>
      qFromV qm h = v ∧ (qm.hes.getD h default).face = -1) with
  | some h => qSetVertHe qm v (h : ℤ)
  | none => qm

/-- The search loop of `getNextConnectedLeiWithHE` (lines 2091–2100):
starting after `oWrapped` in direction `dir`, find the first LEI that is
connected and owns an output halfedge; when the scan wraps around to the
start it returns the original slot. -/
def getNextAux (gvs : List GVC) (c oWrapped : ℕ) (dir : ℤ) :
    ℕ → ℤ → ℕ
  | 0, _ => oWrapped
  | fuel + 1, cur =>
      let len := (getGv gvs c).local_edges.length
      let idx := wrapIdx len cur
      if idx = oWrapped then oWrapped
      else
        let lei := getLei gvs c idx
        if 0 ≤ lei.connected_to_idx ∧ lei.halfedgeIndex ≠ -1 then idx
        else getNextAux gvs c oWrapped dir fuel (cur + dir)

/-- `getNextConnectedLeiWithHE(connected_to_idx, orientation_idx,
direction)`: the resulting `(gvertex, slot)` pair, `none` when the gvertex
index is not a real peer. -/
def getNextConnectedLeiWithHE (gvs : List GVC) (c o dir : ℤ) :
    Option (ℕ × ℕ) :=
  if c < 0 then none
  else
    let cN := c.toNat
    let len := (getGv gvs cN).local_edges.length
    let ow := wrapIdx len o
    some (cN, getNextAux gvs cN ow dir len (o + dir))

/-- The combined extractor output state `add_face` mutates. -/
structure AFState where
  qm : QMesh
  gvs : List GVC
deriving DecidableEq

/-- The opposite LEI of the LEI at `(gi, li)`: the peer's slot at the
recorded `orientation_idx`. -/
def oppositeLeiRef (gvs : List GVC) (gi li : ℕ) : ℕ × ℕ :=
  let lei := getLei gvs gi li
  let c := lei.connected_to_idx.toNat
  (c, wrapIdx (getGv gvs c).local_edges.length lei.orientation_idx)

/-- The per-LEI manifoldness condition of `add_face`'s pre-check loop
(lines 2112–2132): the LEI already has an output halfedge attached to a
face, or — when it has none — a pre-checked previous/next halfedge around
the opposite gvertex is already face-attached. -/
def addFaceViolation (st : AFState) (gl : ℕ × ℕ) : Bool :=
    let lei := getLei st.gvs gl.1 gl.2
    if lei.halfedgeIndex ≠ -1 then qheFace st.qm lei.halfedgeIndex ≠ -1
    else
      let oppRef := oppositeLeiRef st.gvs gl.1 gl.2
      let oppLei := getLei st.gvs oppRef.1 oppRef.2
      let oppNext := getNextConnectedLeiWithHE st.gvs oppLei.connected_to_idx
        oppLei.orientation_idx (-1)
      let oppOppPrev := getNextConnectedLeiWithHE st.gvs lei.connected_to_idx
        lei.orientation_idx 1
      let oppPrev := oppOppPrev.map fun r =>
        let l := getLei st.gvs r.1 r.2
        let c := l.connected_to_idx.toNat
        (c, wrapIdx (getGv st.gvs c).local_edges.length l.orientation_idx)
      (match oppNext with
       | some r => qheFace st.qm (getLei st.gvs r.1 r.2).halfedgeIndex != -1
       | none => false) ||
      (match oppPrev with
       | some r => qheFace st.qm (getLei st.gvs r.1 r.2).halfedgeIndex != -1
       | none => false)

/-- The manifoldness pre-check of `add_face` (lines 2112–2132): some LEI of
the cycle violates the manifoldness condition. -/
def add_face_check_fails (st : AFState) (cycle : List (ℕ × ℕ)) : Bool :=
  cycle.any (addFaceViolation st)

/-- The halfedge-creation body of `add_face` for one LEI of the cycle
(lines 2139–2191). -/
def addFaceOne (newFh : ℤ) (isFirst : Bool) (st : AFState) (gl : ℕ × ℕ) :
    AFState :=
  let lei := getLei st.gvs gl.1 gl.2
  let st1 :=
    if lei.halfedgeIndex = -1 then
      let oppRef := oppositeLeiRef st.gvs gl.1 gl.2
      let fromV := (getLei st.gvs oppRef.1 oppRef.2).connected_to_idx.toNat
      let toV := lei.connected_to_idx.toNat
      let qe := qNewEdge st.qm fromV toV
      let heh0 := qe.2
      let heh1 := heh0 + 1
      let qm1 := if (qe.1.vertHe.getD fromV (-1)) < 0 then qSetVertHe qe.1 fromV (heh0 : ℤ) else qe.1
      let qm2 := if (qm1.vertHe.getD toV (-1)) < 0 then qSetVertHe qm1 toV (heh1 : ℤ) else qm1
      let gvs1 := updateLei st.gvs gl.1 gl.2 (fun l => { l with halfedgeIndex := (heh0 : ℤ) })
      let gvs2 := updateLei gvs1 oppRef.1 oppRef.2 (fun l => { l with halfedgeIndex := (heh1 : ℤ) })
      let oppLei := getLei gvs2 oppRef.1 oppRef.2
      let oppNext := getNextConnectedLeiWithHE gvs2 oppLei.connected_to_idx
        oppLei.orientation_idx (-1)
      let oppOppPrev := getNextConnectedLeiWithHE gvs2 (getLei gvs2 gl.1 gl.2).connected_to_idx
        (getLei gvs2 gl.1 gl.2).orientation_idx 1
      let oppPrev := oppOppPrev.map fun r =>
        let l := getLei gvs2 r.1 r.2
        let c := l.connected_to_idx.toNat
        (c, wrapIdx (getGv gvs2 c).local_edges.length l.orientation_idx)
      let qm3 :=
        match oppNext with
        | some r => qSetNext qm2 heh1 (getLei gvs2 r.1 r.2).halfedgeIndex.toNat
        | none => qm2
      let qm4 :=
        match oppPrev with
        | some r => qSetNext qm3 (getLei gvs2 r.1 r.2).halfedgeIndex.toNat heh1
        | none => qm3
      ⟨qm4, gvs2⟩
    else st
  let heh0 := (getLei st1.gvs gl.1 gl.2).halfedgeIndex.toNat
  let qm5 :=
    if isFirst then
      { st1.qm with faceHe := st1.qm.faceHe.set newFh.toNat (heh0 : ℤ) }
    else st1.qm
  ⟨qSetFace qm5 heh0 newFh, st1.gvs⟩

/-- Fold `addFaceOne` over the cycle, marking the first element. -/
def addFaceLoop (newFh : ℤ) (st : AFState) : List (ℕ × ℕ) → Bool → AFState
  | [], _ => st
  | gl :: t, isFirst =>
      addFaceLoop newFh (addFaceOne newFh isFirst st gl) t false

/-- The closing pass of `add_face` (lines 2193–2207): link consecutive
halfedges, re-assert the face handles, and adjust outgoing halfedges. -/
def addFaceClose (newFh : ℤ) (st : AFState) (cycle : List (ℕ × ℕ)) : AFState :=
  match cycle with
  | [] => st
  | first :: _ =>
      let heOf := fun (st' : AFState) (gl : ℕ × ℕ) =>
        (getLei st'.gvs gl.1 gl.2).halfedgeIndex.toNat
      let lastRef := cycle.getLast?.getD first
      let qm1 := qSetNext st.qm (heOf st lastRef) (heOf st first)
      let qm2 := qSetFace qm1 (heOf st first) newFh
      let qm3 := (cycle.zip (cycle.drop 1)).foldl
        (fun qm pr => qSetFace (qSetNext qm (heOf st pr.1) (heOf st pr.2)) (heOf st pr.2) newFh)
        qm2
      let qm4 := cycle.foldl
        (fun qm gl => qAdjustOutgoing qm (getLei st.gvs gl.1 gl.2).connected_to_idx.toNat)
        qm3
      ⟨qm4, st.gvs⟩

/-- `add_face` (lines 2102–2210): run the manifoldness pre-check; on
failure return the invalid face handle with the state untouched, otherwise
allocate the face and run the mutation passes. -/
def add_face (st : AFState) (cycle : List (ℕ × ℕ)) : ℤ × AFState :=
  if add_face_check_fails st cycle then (-1, st)
  else
    let newFh : ℤ := (st.qm.nFaces : ℤ)
    let qmGrown : QMesh := ⟨st.qm.hes, st.qm.nFaces + 1, st.qm.faceHe ++ [-1], st.qm.vertHe⟩
    let st1 : AFState := ⟨qmGrown, st.gvs⟩
    (newFh, addFaceClose newFh (addFaceLoop newFh st1 cycle true) cycle)

/-- Spec §3's invariant for a connected pair: the two slots point at each
other and their accumulated transitions compose to the identity after
accounting for the intra-gvertex transitions at both ends. -/
def reciprocalPair (gvs : List GVC) (i j c o : ℕ) (iP iS : TF) : Prop :=
  (getLei gvs i j).connected_to_idx = (c : ℤ) ∧
  (getLei gvs i j).orientation_idx = (o : ℤ) ∧
  (getLei gvs c o).connected_to_idx = (i : ℤ) ∧
  (getLei gvs c o).orientation_idx = (j : ℤ) ∧
  (getLei gvs c o).accumulated_tf.comp
    (iP.inverse.comp ((getLei gvs i j).accumulated_tf.comp iS.inverse)) = TF.identity

/-! ## Claim C8: `find_path` (lines 1167–1473)

The input triangle mesh as read by the tracer: `nxt`/`opp` halfedge maps,
face handles (`-1` = boundary halfedge), per-halfedge UVs and transitions,
edge membership and validity, face base halfedges, target vertices, vertex
fans, and the gvertex lookup tables. -/

/-- `LECI_Traced_Into_Boundary` sentinel (modelled from the spec). -/
def LECI_Traced_Into_Boundary : ℤ := -3

/-- `LECI_Traced_Into_Degeneracy` sentinel (modelled from the spec). -/
def LECI_Traced_Into_Degeneracy : ℤ := -4

/-- `FindPathResult`: a found peer `(gvertex, slot)` with the translated
endpoint UVs and accumulated transition, a recorded signal sentinel, or an
error (the LEI is left unconnected). -/
inductive FPResult where
  | found (gvidx oriIdx : ℕ) (uvFrom uvTo : ℚ × ℚ) (tf : TF)
  | signal (code : ℤ)
  | error
deriving DecidableEq

/-- The triangle-mesh and gvertex data read by `find_path`. -/
structure WalkMesh where
  nxt : ℕ → ℕ
  opp : ℕ → ℕ
  heFace : ℕ → ℤ
  uvh : ℕ → ℚ × ℚ
  edgeOf : ℕ → ℕ
  edgeValid : ℕ → Bool
  heTF : ℕ → TF
  faceBase : ℕ → ℕ
  toVertex : ℕ → ℕ
  vihOf : ℕ → List ℕ
  faceGvs : ℕ → List ℕ
  edgeGvs : ℕ → List ℕ
  vertexGvs : ℕ → List ℕ
  gvs : List GVC

/-- `triangleUvOrientation` (lines 632–649). -/
def triangleUvOrientation (m : WalkMesh) (fh : ℕ) : ℤ :=
  let h0 := m.faceBase fh
  let h1 := m.nxt h0
  let h2 := m.nxt h1
  triOrientation (m.uvh h0) (m.uvh h1) (m.uvh h2)

/-- `ori_to_idx` (modelled from the spec §4.6: map a cartesian direction to
its index in CCW order `du, dv, −du, −dv`). -/
def oriToIdx (d : ℚ × ℚ) : ℕ :=
  if d = (1, 0) then 0 else if d = (0, 1) then 1 else if d = (-1, 0) then 2 else 3

/-- `ori_to_idx_inverse` (modelled from the spec §4.6: the CW variant used
for negatively oriented triangles). -/
def oriToIdxInverse (d : ℚ × ℚ) : ℕ :=
  if d = (1, 0) then 0 else if d = (0, -1) then 1 else if d = (-1, 0) then 2 else 3

/-- `reverseApply` (modelled from the spec: translate the endpoint UVs back
into the traced LEI's chart through the accumulated transition). -/
def reverseApply (a b : ℚ × ℚ) (acc : TF) : (ℚ × ℚ) × (ℚ × ℚ) :=
  (acc.inverse.apply a, acc.inverse.apply b)

/-- The fan-accumulation loop of `intra_gv_transition` for OnVertex
gvertices (lines 2063–2079): starting at the incoming halfedge whose face
is `from_fh`, accumulate the transition of the next halfedge and advance
until the fan reaches `to_fh`. -/
def intraFanAux (m : WalkMesh) (to_fh : ℕ) : ℕ → List ℕ → TF → TF
  | 0, _, acc => acc
  | _, [], acc => acc
  | fuel + 1, h :: t, acc =>
      let acc' := (m.heTF (m.nxt h)).comp acc
      match t with
      | [] => acc'
      | h2 :: _ =>
          if m.heFace h2 = (to_fh : ℤ) then acc'
          else intraFanAux m to_fh fuel t acc'

/-- `intra_gv_transition` (lines 2048–2083): the transition from one chart
of a gvertex to another (identity for OnFace; via the edge transitions for
OnEdge; accumulated around the vertex fan for OnVertex). -/
def intra_gv_transition (m : WalkMesh) (from_fh to_fh : ℕ) (gv : GVC)
    (returnIdentityIfSameFh : Bool) : TF :=
  if returnIdentityIfSameFh ∧ from_fh = to_fh then TF.identity
  else if gv.gtype = 0 then TF.identity
  else if gv.gtype = 1 then
    if m.heFace gv.heh = (from_fh : ℤ) then
      (if from_fh = to_fh then m.heTF (m.opp gv.heh) else TF.identity).comp (m.heTF gv.heh)
    else if m.heFace (m.opp gv.heh) = (from_fh : ℤ) then
      (if from_fh = to_fh then m.heTF gv.heh else TF.identity).comp (m.heTF (m.opp gv.heh))
    else TF.identity
  else
    let pivot := m.toVertex gv.heh
    let fan := m.vihOf pivot
    let rot := fan.dropWhile (fun h => m.heFace h ≠ (from_fh : ℤ)) ++
      fan.takeWhile (fun h => m.heFace h ≠ (from_fh : ℤ))
    intraFanAux m to_fh (rot.length + 1) rot TF.identity

/-! ### A single-local-edge repair configuration at a singular vertex

When the start gvertex has exactly one local edge, `final_lei` (the
cycle-successor slot, fetched through the `local_edge` accessor which
wraps modulo the valence) coincides with the traced slot itself.  The
flag-false `intra_gv_transition` of line 1037 then runs the full fan loop
around the pivot vertex, while the flag-true call of line 1036 returns the
identity. -/

/-- A triangle fan of three faces around a singular vertex: the incoming
halfedges of the pivot are `10, 11, 12` on faces `5, 6, 7`, and the
composed loop of next-halfedge transitions is the rotation by `90°`. -/
def singularFanMesh : WalkMesh :=
  ⟨fun h => h + 10, fun h => h,
   fun h => if h = 10 then 5 else if h = 11 then 6 else if h = 12 then 7 else -1,
   fun _ => (0, 0), fun _ => 0, fun _ => false,
   fun h => if h = 20 then ⟨1, 0, 0⟩ else TF.identity,
   fun _ => 0, fun _ => 0, fun _ => [10, 11, 12],
   fun _ => [], fun _ => [], fun _ => [], []⟩

/-- Two OnVertex gvertices over the singular fan, the start one with a
single connected local edge out of face `5` — the configuration in which
the fan repair inserts with `final_lei = &*start_lei_it`. -/
def singleLeiGvs : List GVC :=
  [⟨2, 0, (0, 0), [⟨5, (0, 0), (1, 0), (1, 0), 1, 0, TF.identity, -1, false⟩]⟩,
   ⟨2, 0, (1, 0), [⟨5, (1, 0), (0, 0), (0, 0), 0, 0, TF.identity, -1, false⟩]⟩]

/-- The state written by the repair insertion in that configuration, with
the four `intra_gv_transition` values exactly as the source computes them:
`from = to = face 5` at both gvertices, and the flag of the line-1037 call
false because `final_lei` coincides with the traced slot. -/
def singleLeiRepairState : List GVC :=
  try_connect_insert singleLeiGvs 0 0 1 0 TF.identity
    (intra_gv_transition singularFanMesh 5 5 (getGv singleLeiGvs 0) true)
    (intra_gv_transition singularFanMesh 5 5 (getGv singleLeiGvs 0) false)
    (intra_gv_transition singularFanMesh 5 5 (getGv singleLeiGvs 1) true)
    (intra_gv_transition singularFanMesh 5 5 (getGv singleLeiGvs 0) true)

/-- One candidate chart examined by `find_local_connection_at_vertex`. -/
structure FLCCand where
  fh : ℤ
  tf : TF
  uvF : ℚ × ℚ
  uvO : ℚ × ℚ
  uvT : ℚ × ℚ

/-- `find_local_connection_at_vertex` (lines 1603–1696): build the
candidate charts (the incident one, plus the CCW/CW fan neighbours when
the path is collinear with the corresponding corner), then scan the
vertex's gvertices for a matching LEI. -/
def find_local_connection_at_vertex (m : WalkMesh) (uvFrom uvOrig uvTo : ℚ × ℚ)
    (heh : ℕ) (t1 t2 : ℚ × ℚ) (acc : TF) : FPResult :=
  let vh := m.toVertex heh
  let cand0 : List FLCCand := [⟨m.heFace heh, TF.identity, uvFrom, uvOrig, uvTo⟩]
  let cand1 : List FLCCand :=
    if orient2dP uvFrom uvTo t2 = 0 then
      let opp_heh := m.opp heh
      if m.heFace opp_heh ≠ -1 then
        let tf := m.heTF heh
        [⟨m.heFace opp_heh, tf, tf.apply uvFrom, tf.apply uvOrig, tf.apply uvTo⟩]
      else []
    else []
  let cand2 : List FLCCand :=
    if orient2dP uvFrom uvTo t1 = 0 then
      let nheh := m.nxt heh
      let opp_nheh := m.opp nheh
      if m.heFace opp_nheh ≠ -1 then
        let tf := m.heTF nheh
        [⟨m.heFace opp_nheh, tf, tf.apply uvFrom, tf.apply uvOrig, tf.apply uvTo⟩]
      else []
    else []
  let cands := cand0 ++ cand1 ++ cand2
  match (m.vertexGvs vh).findSome? (fun vidx =>
    (List.range (getGv m.gvs vidx).local_edges.length).findSome? (fun j =>
      cands.findSome? (fun c =>
        let le := getLei m.gvs vidx j
        if c.fh = (le.fh_from : ℤ) ∧ c.uvF = le.uv_intended_to ∧ c.uvT = le.uv_from then
          some (vidx, j, c)
        else none))) with
  | some (vidx, j, c) =>
      let gv := getGv m.gvs vidx
      let intra := intra_gv_transition m c.fh.toNat (m.heFace gv.heh).toNat gv true
      let acc' := intra.comp (c.tf.comp acc)
      let pr := reverseApply (intra.apply c.uvO) (intra.apply c.uvT) acc'
      .found vidx j pr.1 pr.2 acc'
  | none => .error

/-- `find_local_connection_at_edge` (lines 1544–1597): scan the edge's
gvertices for an LEI matching the endpoints in either incident chart.
(As in the source, `uv_original_from_opp` is not transformed by the
cross-edge transition.) -/
def find_local_connection_at_edge (m : WalkMesh) (uvFrom uvOrig uvTo : ℚ × ℚ)
    (heh : ℕ) (acc : TF) : FPResult :=
  let eh := m.edgeOf heh
  let fh := m.heFace heh
  let heh_opp := m.opp heh
  let fh_opp := m.heFace heh_opp
  let cross := m.heTF heh
  let uvFromOpp := cross.apply uvFrom
  let uvOrigOpp := uvOrig
  let uvToOpp := cross.apply uvTo
  match (m.edgeGvs eh).findSome? (fun vidx =>
    (List.range (getGv m.gvs vidx).local_edges.length).findSome? (fun j =>
      let le := getLei m.gvs vidx j
      if ((le.fh_from : ℤ) = fh ∧ le.uv_from = uvTo ∧ le.uv_intended_to = uvFrom)
          ∨ ((le.fh_from : ℤ) = fh_opp ∧ le.uv_from = uvToOpp ∧ le.uv_intended_to = uvFromOpp) then
        some (vidx, j)
      else none)) with
  | some (vidx, j) =>
      if m.heFace (getGv m.gvs vidx).heh = fh then
        let pr := reverseApply uvOrig uvTo acc
        .found vidx j pr.1 pr.2 acc
      else
        let acc' := cross.comp acc
        let pr := reverseApply uvOrigOpp uvToOpp acc'
        .found vidx j pr.1 pr.2 acc'
  | none => .error

/-- `find_local_connection` (lines 1478–1538): resolve an endpoint lying
inside or on the boundary of the current triangle. -/
def find_local_connection (m : WalkMesh) (uvFrom uvOrig uvTo : ℚ × ℚ)
    (p0 p1 p2 : ℚ × ℚ) (heh0 heh1 heh2 : ℕ) (bs : ℕ) (acc : TF) : FPResult :=
  if triOrientation p0 p1 p2 = 0 then .signal LECI_Traced_Into_Degeneracy
  else if bs = 0 then
    let fh := (m.heFace heh0).toNat
    let face_ori := triangleUvOrientation m fh
    let dir : ℚ × ℚ := (uvFrom.1 - uvTo.1, uvFrom.2 - uvTo.2)
    let ori_idx := if face_ori = -1 then oriToIdxInverse dir else oriToIdx dir
    match (m.faceGvs fh).find? (fun gvidx =>
        (getLei m.gvs gvidx ori_idx).uv_intended_to = uvFrom ∧
        (getLei m.gvs gvidx ori_idx).uv_from = uvTo) with
    | some gvidx =>
        let pr := reverseApply uvOrig uvTo acc
        .found gvidx ori_idx pr.1 pr.2 acc
    | none => .error
  else
    if uvTo = p0 then
      find_local_connection_at_vertex m uvFrom uvOrig uvTo heh0 p1 p2 acc
    else if uvTo = p1 then
      find_local_connection_at_vertex m uvFrom uvOrig uvTo heh1 p2 p0 acc
    else if uvTo = p2 then
      find_local_connection_at_vertex m uvFrom uvOrig uvTo heh2 p0 p1 acc
    else if segHasOn p2 p0 uvTo then
      find_local_connection_at_edge m uvFrom uvOrig uvTo heh0 acc
    else if segHasOn p0 p1 uvTo then
      find_local_connection_at_edge m uvFrom uvOrig uvTo heh1 acc
    else if segHasOn p1 p2 uvTo then
      find_local_connection_at_edge m uvFrom uvOrig uvTo heh2 acc
    else .error

/-- The mutable state of the main walking loop. -/
structure WalkCfg where
  curHeh : ℕ
  uvFrom : ℚ × ℚ
  uvOrigFrom : ℚ × ℚ
  uvTo : ℚ × ℚ
  accTF : TF
  inverted : Bool
deriving DecidableEq

/-- One iteration of the main walking loop of `find_path` (lines
1302–1454): either a final `FindPathResult` (`Sum.inl`) or the
configuration entering the next iteration (`Sum.inr`). -/
def stepWalk (m : WalkMesh) (cfg : WalkCfg) : FPResult ⊕ WalkCfg :=
  if m.heFace cfg.curHeh = -1 then .inl (.signal LECI_Traced_Into_Boundary)
  else
    let heh0 := cfg.curHeh
    let heh1 := m.nxt heh0
    let heh2 := m.nxt heh1
    let uv0 := m.uvh heh0
    let uv1 := m.uvh heh1
    let uv2 := m.uvh heh2
    let tri_ori := triOrientation uv0 uv1 uv2
    if tri_ori = 0 ∧ ¬(uv0 ≠ uv1 ∧ uv1 ≠ uv2 ∧ uv2 ≠ uv0) then
      .inl (.signal LECI_Traced_Into_Degeneracy)
    else
      let currentlyInverted := tri_ori = -1
      let doSwap := currentlyInverted ≠ (cfg.inverted = true)
      let uvF := if doSwap then cfg.uvTo else cfg.uvFrom
      let uvT := if doSwap then cfg.uvFrom else cfg.uvTo
      let bs := boundedness uv0 uv1 uv2 uvT
      if bs = 0 ∨ bs = 1 then
        .inl (find_local_connection m uvF cfg.uvOrigFrom uvT uv0 uv1 uv2 heh0 heh1 heh2 bs cfg.accTF)
      else
        let is1 := segIntersects uvF uvT uv0 uv1
        let is2 := segIntersects uvF uvT uv2 uv1
        let hehUpd : Option ℕ :=
          if is1 ∧ ¬is2 then some heh1
          else if ¬is1 ∧ is2 then some heh2
          else if is1 ∧ is2 then
            let vis0 := segHasOn uvF uvT uv0
            let vis1 := segHasOn uvF uvT uv1
            let vis2 := segHasOn uvF uvT uv2
            if ¬vis0 ∧ ¬vis1 ∧ vis2 then some heh1
            else if vis0 ∧ vis2 then
              if orient2dP uvF uvT uv1 = tri_ori then some heh1 else some heh2
            else some heh2
          else none
        match hehUpd with
        | none => .inl .error
        | some hu =>
            if ¬ m.edgeValid (m.edgeOf hu) then
              .inl (.signal LECI_Traced_Into_Degeneracy)
            else
              let tf := m.heTF hu
              .inr ⟨m.opp hu, tf.apply uvF, tf.apply cfg.uvOrigFrom, tf.apply uvT,
                tf.comp cfg.accTF, currentlyInverted⟩

/-- The main walking loop with its iteration budget: when the budget is
exhausted the source falls through to the diagnostic block of lines
1457–1472 and returns an error. -/
def walkLoop (m : WalkMesh) : ℕ → WalkCfg → FPResult
  | 0, _ => .error
  | fuel + 1, cfg =>
      match stepWalk m cfg with
      | .inl r => r
      | .inr c => walkLoop m fuel c

/-- Iterate `stepWalk` exactly `k` times (sticky once resolved). -/
def runSteps (m : WalkMesh) : ℕ → WalkCfg → WalkCfg ⊕ FPResult
  | 0, cfg => .inl cfg
  | k + 1, cfg =>
      match stepWalk m cfg with
      | .inl r => .inr r
      | .inr c => runSteps m k c

/-- The initialization of `find_path` (lines 1170–1297): cheap-out into
`find_local_connection`, otherwise choose the first exiting halfedge
according to the gvertex type and cross it. -/
def find_path_init (m : WalkMesh) (gv : GVC) (lei : LEIC) : FPResult ⊕ WalkCfg :=
  let cur_fh := lei.fh_from
  let uv_from := lei.uv_from
  let uv_orig := lei.uv_from
  let uv_to := lei.uv_intended_to
  let heh0 := m.faceBase cur_fh
  let heh1 := m.nxt heh0
  let heh2 := m.nxt heh1
  let uv0 := m.uvh heh0
  let uv1 := m.uvh heh1
  let uv2 := m.uvh heh2
  let inverted := triOrientation uv0 uv1 uv2 = -1
  let bs := boundedness uv0 uv1 uv2 uv_to
  if bs = 0 ∨ bs = 1 then
    .inl (find_local_connection m uv_from uv_orig uv_to uv0 uv1 uv2 heh0 heh1 heh2 bs TF.identity)
  else
    let curHeh : Option ℕ :=
      if gv.gtype = 0 then
        if segIntersects uv_from uv_to uv2 uv0 then some heh0
        else if segIntersects uv_from uv_to uv0 uv1 then some heh1
        else if segIntersects uv_from uv_to uv1 uv2 then some heh2
        else none
      else if gv.gtype = 1 then
        let ch := if m.heFace gv.heh = -1 ∨ m.heFace gv.heh ≠ (cur_fh : ℤ) then m.opp gv.heh else gv.heh
        let prev_heh := m.nxt (m.nxt ch)
        let next_heh := m.nxt ch
        if segIntersects uv_from uv_to (m.uvh ch) (m.uvh next_heh) then some next_heh
        else some prev_heh
      else
        let vh := m.toVertex gv.heh
        if m.toVertex heh0 = vh then some heh2
        else if m.toVertex heh1 = vh then some heh0
        else if m.toVertex heh2 = vh then some heh1
        else none
    match curHeh with
    | none => .inl .error
    | some ch =>
        if ¬ m.edgeValid (m.edgeOf ch) then .inl (.signal LECI_Traced_Into_Degeneracy)
        else
          let tf := m.heTF ch
          .inr ⟨m.opp ch, tf.apply uv_from, tf.apply uv_orig, tf.apply uv_to,
            tf.comp TF.identity, inverted⟩

/-- `find_path` (lines 1167–1473): initialization followed by the main
walking loop with its budget of 100000 iterations. -/
def find_path (m : WalkMesh) (gv : GVC) (lei : LEIC) : FPResult :=
  match find_path_init m gv lei with
  | .inl r => r
  | .inr cfg => walkLoop m 100000 cfg

end QEx

namespace QEx

theorem rotQ_emod (r : ℤ) (p : ℚ × ℚ) : rotQ (r % 4) p = rotQ r p := by
  unfold rotQ
  simp [Int.emod_emod_of_dvd]

theorem rotQ_cases (r : ℤ) :
    r % 4 = 0 ∨ r % 4 = 1 ∨ r % 4 = 2 ∨ r % 4 = 3 := by omega

theorem rotQ_add (a b : ℤ) (p : ℚ × ℚ) :
    rotQ (a + b) p = rotQ a (rotQ b p) := by
  rcases rotQ_cases a with ha | ha | ha | ha <;>
    rcases rotQ_cases b with hb | hb | hb | hb <;>
      simp [rotQ, ha, hb, Int.add_emod, Prod.ext_iff]

theorem rotZ_add (a b : ℤ) (p : ℤ × ℤ) :
    rotZ (a + b) p = rotZ a (rotZ b p) := by
  rcases rotQ_cases a with ha | ha | ha | ha <;>
    rcases rotQ_cases b with hb | hb | hb | hb <;>
      simp [rotZ, ha, hb, Int.add_emod, Prod.ext_iff]

theorem rotZ_emod (r : ℤ) (p : ℤ × ℤ) : rotZ (r % 4) p = rotZ r p := by
  unfold rotZ
  simp [Int.emod_emod_of_dvd]

theorem rotQ_zero (p : ℚ × ℚ) : rotQ 0 p = p := by simp [rotQ]

theorem rotZ_zero (p : ℤ × ℤ) : rotZ 0 p = p := by simp [rotZ]

theorem rotQ_cast (r : ℤ) (p : ℤ × ℤ) :
    rotQ r ((p.1 : ℚ), (p.2 : ℚ)) = (((rotZ r p).1 : ℚ), ((rotZ r p).2 : ℚ)) := by
  rcases rotQ_cases r with h | h | h | h <;> simp [rotQ, rotZ, h]

theorem rotQ_neg_arg (r : ℤ) (p : ℚ × ℚ) :
    rotQ r (-p.1, -p.2) = (-(rotQ r p).1, -(rotQ r p).2) := by
  rcases rotQ_cases r with h | h | h | h <;> simp [rotQ, h]

theorem rotQ_add_arg (r : ℤ) (p q : ℚ × ℚ) :
    rotQ r (p.1 + q.1, p.2 + q.2) = ((rotQ r p).1 + (rotQ r q).1, (rotQ r p).2 + (rotQ r q).2) := by
  rcases rotQ_cases r with h | h | h | h <;> simp [rotQ, h] <;> ring_nf <;> simp

namespace TF

theorem apply_comp (f g : TF) (p : ℚ × ℚ) :
    (f.comp g).apply p = f.apply (g.apply p) := by
  rcases rotQ_cases f.r with hc | hc | hc | hc <;>
    rcases rotQ_cases g.r with hd | hd | hd | hd <;>
      · have hs : (f.r + g.r) % 4 = (f.r % 4 + g.r % 4) % 4 := Int.add_emod _ _ _
        rw [hc, hd] at hs
        simp only [apply, comp, rotQ, rotZ, hc, hd, hs]
        norm_num [Prod.ext_iff]
        constructor <;> push_cast <;> ring

theorem apply_identity (p : ℚ × ℚ) : identity.apply p = p := by
  simp [identity, apply, rotQ]

theorem inverse_comp_cancel (f : TF) : f.inverse.comp f = identity := by
  have hnn : ((-f.r) % 4) % 4 = (-f.r) % 4 := Int.emod_emod_of_dvd _ (by norm_num)
  have hs : ((-f.r) % 4 + f.r) % 4 = 0 := by omega
  rcases rotQ_cases f.r with hc | hc | hc | hc
  · have hn : (-f.r) % 4 = 0 := by omega
    simp only [inverse, comp, identity, rotZ, hn, hnn, hs, hc, TF.mk.injEq]
    norm_num
    try omega
  · have hn : (-f.r) % 4 = 3 := by omega
    simp only [inverse, comp, identity, rotZ, hn, hnn, hs, hc, TF.mk.injEq]
    norm_num
    try omega
  · have hn : (-f.r) % 4 = 2 := by omega
    simp only [inverse, comp, identity, rotZ, hn, hnn, hs, hc, TF.mk.injEq]
    norm_num
    try omega
  · have hn : (-f.r) % 4 = 1 := by omega
    simp only [inverse, comp, identity, rotZ, hn, hnn, hs, hc, TF.mk.injEq]
    norm_num
    try omega

theorem comp_inverse_cancel (f : TF) : f.comp f.inverse = identity := by
  have hs : (f.r + (-f.r) % 4) % 4 = 0 := by omega
  rcases rotQ_cases f.r with hc | hc | hc | hc
  · have hn : (-f.r) % 4 = 0 := by omega
    simp only [inverse, comp, identity, rotZ, hn, hs, hc, TF.mk.injEq]
    norm_num
    try omega
  · have hn : (-f.r) % 4 = 3 := by omega
    simp only [inverse, comp, identity, rotZ, hn, hs, hc, TF.mk.injEq]
    norm_num
    try omega
  · have hn : (-f.r) % 4 = 2 := by omega
    simp only [inverse, comp, identity, rotZ, hn, hs, hc, TF.mk.injEq]
    norm_num
    try omega
  · have hn : (-f.r) % 4 = 1 := by omega
    simp only [inverse, comp, identity, rotZ, hn, hs, hc, TF.mk.injEq]
    norm_num
    try omega

theorem apply_inverse_apply (f : TF) (p : ℚ × ℚ) :
    f.inverse.apply (f.apply p) = p := by
  rw [← apply_comp, inverse_comp_cancel, apply_identity]

theorem apply_apply_inverse (f : TF) (p : ℚ × ℚ) :
    f.apply (f.inverse.apply p) = p := by
  rw [← apply_comp, comp_inverse_cancel, apply_identity]

theorem comp_r_mem (f g : TF) : 0 ≤ (f.comp g).r ∧ (f.comp g).r < 4 := by
  show 0 ≤ (f.r + g.r) % 4 ∧ (f.r + g.r) % 4 < 4
  constructor <;> omega

theorem inverse_r_mem (f : TF) : 0 ≤ f.inverse.r ∧ f.inverse.r < 4 := by
  show 0 ≤ (-f.r) % 4 ∧ (-f.r) % 4 < 4
  constructor <;> omega

/-- Two transition functions with normalized rotations that act identically
on the plane are equal. -/
theorem eq_of_apply (f g : TF) (hf0 : 0 ≤ f.r) (hf4 : f.r < 4) (hg0 : 0 ≤ g.r) (hg4 : g.r < 4)
    (h : ∀ p, f.apply p = g.apply p) : f = g := by
  have h0 := h (0, 0)
  have h1 := h (1, 0)
  have hfr : f.r % 4 = f.r := Int.emod_eq_of_lt hf0 hf4
  have hgr : g.r % 4 = g.r := Int.emod_eq_of_lt hg0 hg4
  have ht : f.tu = g.tu ∧ f.tv = g.tv := by
    unfold apply at h0
    rcases rotQ_cases f.r with hc | hc | hc | hc <;>
      rcases rotQ_cases g.r with hd | hd | hd | hd <;>
        · simp [rotQ, hc, hd, Prod.ext_iff] at h0
          exact_mod_cast h0
  have htu : f.tu = g.tu := ht.1
  have htv : f.tv = g.tv := ht.2
  have hr : f.r = g.r := by
    unfold apply at h1
    rcases rotQ_cases f.r with hc | hc | hc | hc <;>
      rcases rotQ_cases g.r with hd | hd | hd | hd <;>
        first
          | omega
          | (exfalso
             simp [rotQ, hc, hd, Prod.ext_iff, htu, htv] at h1
             all_goals norm_num at h1)
  cases f; cases g
  simp_all

end TF

end QEx

namespace QEx

/-! ## Rounding lemmas -/

theorem roundQME_eq_of_near (n : ℤ) (x : ℚ) (h : |x - n| < 1/2) :
    roundQME x = n := by
  rw [abs_lt] at h
  obtain ⟨h1, h2⟩ := h
  unfold roundQME
  split
  · rw [Int.ceil_eq_iff]
    constructor <;> [push_cast; push_cast] <;> linarith
  · rw [Int.floor_eq_iff]
    constructor <;> [push_cast; push_cast] <;> linarith

theorem roundQME_intCast (n : ℤ) : roundQME (n : ℚ) = n := by
  apply roundQME_eq_of_near
  simp

theorem snapPairQ_of_near (n : ℤ) (a b : ℚ)
    (ha : |a - n| < 1/10000) (hb : |b - n| < 1/10000) :
    snapPairQ a b = ((n : ℚ), (n : ℚ)) := by
  have hra : roundQME a = n := roundQME_eq_of_near n a (by linarith [abs_nonneg (a - (n:ℚ))])
  have hrb : roundQME b = n := roundQME_eq_of_near n b (by linarith [abs_nonneg (b - (n:ℚ))])
  unfold snapPairQ
  rw [hra, hrb]
  rw [if_pos ⟨ha, hb⟩]

theorem snapPairQ_of_far (a b : ℚ)
    (ha : ∀ mz : ℤ, 2/10000 ≤ |a - mz|) : snapPairQ a b = (a, b) := by
  unfold snapPairQ
  rw [if_neg]
  intro hcon
  have := ha (roundQME a)
  linarith [hcon.1]

end QEx

namespace QEx

/-- Claim C6: for every boundary edge flagged selected or feature and each
axis separately, if the UV coordinates at both halfedges on that axis are
each within `1e-4` of the same integer `n`, the snap step of
`consistent_truncation` replaces both coordinates with `n`; and a
coordinate whose distance to every integer is at least `2e-4` is never
snapped (shown here for the `u` axis; the `v` axis is processed by the
same `snapPairQ` on the second components). -/
theorem C6_boundary_snap (uv : UV) (e : TruncEdge) (n : ℤ)
    (hb : e.isBoundaryE = true) (hs : e.selOrFeat = true) (hne : e.heh0 ≠ e.heh1) :
    ((|(uv e.heh0).1 - n| < 1/10000 → |(uv e.heh1).1 - n| < 1/10000 →
      (snapEdgeF uv e e.heh0).1 = (n : ℚ) ∧ (snapEdgeF uv e e.heh1).1 = (n : ℚ)) ∧
     ((∀ mz : ℤ, 2/10000 ≤ |(uv e.heh0).1 - mz|) →
      (snapEdgeF uv e e.heh0).1 = (uv e.heh0).1 ∧
      (snapEdgeF uv e e.heh1).1 = (uv e.heh1).1)) := by
  have hcond : (e.isBoundaryE && e.selOrFeat) = true := by rw [hb, hs]; rfl
  constructor
  · intro h0 h1
    have hsnap := snapPairQ_of_near n (uv e.heh0).1 (uv e.heh1).1 h0 h1
    unfold snapEdgeF
    rw [hcond]
    simp only [if_true, updUV, hsnap]
    simp [hne]
  · intro hfar
    have hsnap := snapPairQ_of_far (uv e.heh0).1 (uv e.heh1).1 hfar
    unfold snapEdgeF
    rw [hcond]
    simp only [if_true, updUV, hsnap]
    simp [hne]

/-- Witness for C6: a concrete selected boundary edge whose end `u` values
`3 + 1/20000` and `3 − 1/20000` are both within `1e-4` of `3` and get
snapped to `3`. -/
theorem C6_boundary_snap_witness :
    (snapEdgeF (fun h => if h = 0 then (3 + 1/20000, 0) else if h = 1 then (3 - 1/20000, 0) else (0, 0))
      ⟨0, 1, true, true⟩ 0).1 = (3 : ℚ) ∧
    (snapEdgeF (fun h => if h = 0 then (3 + 1/20000, 0) else if h = 1 then (3 - 1/20000, 0) else (0, 0))
      ⟨0, 1, true, true⟩ 1).1 = (3 : ℚ) := by
  have h := (C6_boundary_snap
    (fun h => if h = 0 then (3 + 1/20000, 0) else if h = 1 then (3 - 1/20000, 0) else (0, 0))
    ⟨0, 1, true, true⟩ 3 rfl rfl (by norm_num)).1
    (by norm_num [abs_lt]) (by norm_num [abs_lt])
  exact_mod_cast h

end QEx

namespace QEx

/-! ## Claim C5 lemmas and theorem -/

theorem neg_tmod_four (a : ℤ) : (-a).tmod 4 = -(a.tmod 4) := by
  rcases a with n | n
  · rcases n with _ | k
    · rfl
    · show (Int.negSucc k).tmod 4 = -(Int.ofNat (k + 1)).tmod 4
      simp [Int.tmod]
  · show (Int.ofNat (n + 1)).tmod 4 = -(Int.negSucc n).tmod 4
    simp [Int.tmod]

theorem tmod_four_bounds (a : ℤ) : -4 < a.tmod 4 ∧ a.tmod 4 < 4 := by
  rcases le_or_lt 0 a with h | h
  · have h1 := Int.tmod_nonneg 4 h
    have h2 := Int.tmod_lt_of_pos a (show (0 : ℤ) < 4 by norm_num)
    constructor <;> linarith
  · have hge : 0 ≤ -a := by linarith
    have h1 := Int.tmod_nonneg 4 hge
    have h2 := Int.tmod_lt_of_pos (-a) (show (0 : ℤ) < 4 by norm_num)
    rw [neg_tmod_four] at h1 h2
    constructor <;> linarith

theorem cpp_normalize_mem (a : ℤ) :
    0 ≤ (a.tmod 4 + 4).tmod 4 ∧ (a.tmod 4 + 4).tmod 4 < 4 := by
  obtain ⟨hl, hr⟩ := tmod_four_bounds a
  have hge : 0 ≤ a.tmod 4 + 4 := by linarith
  exact ⟨Int.tmod_nonneg 4 hge, Int.tmod_lt_of_pos _ (show (0 : ℤ) < 4 by norm_num)⟩

/-- Claim C5: after `extract_transition_functions` runs, every boundary
edge's stored transition function is exactly `(0,0,0)`, and every interior
edge's stored transition function has its rotation component in
`{0,1,2,3}` — the computed rotation is normalized by `((r % 4) + 4) % 4`
with C++ truncating `%`. -/
theorem C5_transition_function_normalized (e : EdgeTFInput) :
    (e.isBoundary = true → extract_transition_function_edge e = TF.mk 0 0 0) ∧
    (e.isBoundary = false →
      (extract_transition_function_edge e).r = 0 ∨
      (extract_transition_function_edge e).r = 1 ∨
      (extract_transition_function_edge e).r = 2 ∨
      (extract_transition_function_edge e).r = 3) := by
  constructor
  · intro hb
    unfold extract_transition_function_edge
    rw [hb]
    rfl
  · intro hb
    unfold extract_transition_function_edge
    rw [hb]
    simp only [Bool.false_eq_true, if_false]
    obtain ⟨hl, hr⟩ := cpp_normalize_mem e.rRaw
    omega

/-- Witness for C5: a concrete boundary edge stores the identity, and a
concrete interior edge with raw rotation `-7` stores rotation `1`. -/
theorem C5_transition_function_normalized_witness :
    extract_transition_function_edge ⟨true, (0, 0), -7, (0, 0)⟩ = TF.mk 0 0 0 ∧
    ((extract_transition_function_edge ⟨false, (0, 0), -7, (2, 3)⟩).r = 0 ∨
     (extract_transition_function_edge ⟨false, (0, 0), -7, (2, 3)⟩).r = 1 ∨
     (extract_transition_function_edge ⟨false, (0, 0), -7, (2, 3)⟩).r = 2 ∨
     (extract_transition_function_edge ⟨false, (0, 0), -7, (2, 3)⟩).r = 3) :=
  ⟨(C5_transition_function_normalized ⟨true, (0, 0), -7, (0, 0)⟩).1 rfl,
   (C5_transition_function_normalized ⟨false, (0, 0), -7, (2, 3)⟩).2 rfl⟩

end QEx

namespace QEx

/-! ## `processVertex` access lemmas (claims C3 and C9) -/

theorem updUV_self (uv : UV) (h : ℕ) (p : ℚ × ℚ) : updUV uv h p h = p := by
  simp [updUV]

theorem updUV_ne (uv : UV) (h k : ℕ) (p : ℚ × ℚ) (hne : k ≠ h) :
    updUV uv h p k = uv k := by
  simp [updUV, hne]

theorem applyWrites_not_mem (L : List (ℕ × (ℚ × ℚ))) (uv : UV) (h : ℕ)
    (hh : h ∉ L.map Prod.fst) : applyWrites L uv h = uv h := by
  induction L generalizing uv with
  | nil => rfl
  | cons x t ih =>
      simp only [List.map_cons, List.mem_cons] at hh
      push_neg at hh
      simp only [applyWrites]
      rw [ih _ hh.2, updUV_ne _ _ _ _ hh.1]

theorem propagateF_keys_sublist (m : TruncMesh) (rest : List ℕ) (c : ℚ × ℚ) :
    ((propagateF m rest c).map Prod.fst).Sublist rest := by
  induction rest generalizing c with
  | nil => simp [propagateF]
  | cons h t ih =>
      by_cases hb : m.heBoundary h
      · simp only [propagateF, hb, if_true]
        exact (ih c).cons h
      · simp only [propagateF, hb, if_false, List.map_cons]
        exact (ih _).cons₂ h

theorem processVertex_anchor (m : TruncMesh) (uv : UV) (v : VertexEntry)
    (a : ℕ) (rest : List ℕ) (hv : v.incoming = a :: rest) (ha : a ∉ rest) :
    processVertex m uv v a = anchorVal m v (uv a) := by
  unfold processVertex
  rw [hv]
  simp only [vertexWrites, hv, applyWrites]
  rw [applyWrites_not_mem]
  · exact updUV_self uv a _
  · intro hmem
    exact ha (List.Sublist.mem hmem (propagateF_keys_sublist m rest _))

/-- Claim C3: for an interior vertex whose vertex transition has rotation
`r ∈ {1,2,3}`, `consistent_truncation`'s per-vertex pass sets the anchor
halfedge's UV to the closed-form point of the switch of lines 271–283,
which is the unique fixed point of that vertex transition. -/
theorem C3_singular_fixed_point (m : TruncMesh) (uv : UV) (v : VertexEntry)
    (a : ℕ) (rest : List ℕ) (hv : v.incoming = a :: rest) (ha : a ∉ rest)
    (hint : v.isBoundaryV = false)
    (hr : (vertexTransition m v).r = 1 ∨ (vertexTransition m v).r = 2 ∨
          (vertexTransition m v).r = 3) :
    processVertex m uv v a = fixedPointUV (vertexTransition m v) ∧
    (vertexTransition m v).apply (fixedPointUV (vertexTransition m v)) =
      fixedPointUV (vertexTransition m v) ∧
    (∀ q : ℚ × ℚ, (vertexTransition m v).apply q = q →
      q = fixedPointUV (vertexTransition m v)) := by
  set vt := vertexTransition m v with hvt
  have hne : vt ≠ TF.identity := by
    intro hcon
    rw [hcon] at hr
    simp [TF.identity] at hr
  refine ⟨?_, ?_, ?_⟩
  · rw [processVertex_anchor m uv v a rest hv ha]
    unfold anchorVal
    rw [← hvt, hint]
    simp only [Bool.not_false, Bool.true_and]
    rw [if_pos, if_pos hr]
    simp [hne]
  · rcases hr with h | h | h <;>
      · unfold TF.apply fixedPointUV rotQ
        rw [h]
        norm_num [Prod.ext_iff]
        constructor <;> ring
  · intro q hq
    unfold TF.apply rotQ at hq
    rw [Prod.ext_iff] at hq
    rcases hr with h | h | h <;>
      · unfold fixedPointUV
        rw [h] at hq ⊢
        norm_num at hq ⊢
        rw [Prod.ext_iff]
        obtain ⟨h1, h2⟩ := hq
        constructor <;> [skip; skip] <;> simp only [] <;> linarith

/-- Witness for C3: a one-triangle fan around an interior vertex whose
accumulated transition is `(1, 1, 0)`; the anchor UV becomes `(1/2, 1/2)`,
the unique fixed point. -/
theorem C3_singular_fixed_point_witness :
    processVertex
      ⟨[⟨[5], false, 8⟩], [], false, (fun _ => false), (fun h => h), (fun _ => TF.mk 1 1 0)⟩
      (fun _ => (0, 0)) ⟨[5], false, 8⟩ 5 = (1/2, 1/2) := by
  have h := (C3_singular_fixed_point
    ⟨[⟨[5], false, 8⟩], [], false, (fun _ => false), (fun h => h), (fun _ => TF.mk 1 1 0)⟩
    (fun _ => (0, 0)) ⟨[5], false, 8⟩ 5 [] rfl (by simp) rfl (by left; rfl)).1
  rw [h]
  norm_num [vertexTransition, fixedPointUV, TF.comp, TF.identity, rotZ, Prod.ext_iff]

end QEx

namespace QEx

/-! ## Geometry lemmas and claim C4 -/

theorem qsign_eq_one_iff (x : ℚ) : qsign x = 1 ↔ 0 < x := by
  unfold qsign
  split
  · simp_all
  · split <;> simp_all <;> linarith

theorem qsign_eq_neg_one_iff (x : ℚ) : qsign x = -1 ↔ x < 0 := by
  unfold qsign
  split
  · constructor
    · intro h; omega
    · intro h; linarith
  · split <;> simp_all

theorem det2_sum (p0 p1 p2 q : ℚ × ℚ) :
    det2 p1 p2 q + det2 p2 p0 q + det2 p0 p1 q = det2 p0 p1 p2 := by
  unfold det2
  ring

theorem det2_bary_x (p0 p1 p2 q : ℚ × ℚ) :
    det2 p1 p2 q * p0.1 + det2 p2 p0 q * p1.1 + det2 p0 p1 q * p2.1 =
      det2 p0 p1 p2 * q.1 := by
  unfold det2
  ring

theorem det2_bary_y (p0 p1 p2 q : ℚ × ℚ) :
    det2 p1 p2 q * p0.2 + det2 p2 p0 q * p1.2 + det2 p0 p1 q * p2.2 =
      det2 p0 p1 p2 * q.2 := by
  unfold det2
  ring

theorem bary_bounds (al be ga D u0 u1 u2 u : ℚ)
    (hsum : al + be + ga = D) (hcomb : al * u0 + be * u1 + ga * u2 = D * u)
    (ha : 0 < al) (hb : 0 < be) (hc : 0 < ga) :
    min u0 (min u1 u2) ≤ u ∧ u ≤ max u0 (max u1 u2) := by
  have hD : 0 < D := by linarith
  constructor
  · set mn := min u0 (min u1 u2) with hmn
    have h0 : mn ≤ u0 := min_le_left _ _
    have h1 : mn ≤ u1 := le_trans (min_le_right _ _) (min_le_left _ _)
    have h2 : mn ≤ u2 := le_trans (min_le_right _ _) (min_le_right _ _)
    have e0 : al * mn ≤ al * u0 := mul_le_mul_of_nonneg_left h0 ha.le
    have e1 : be * mn ≤ be * u1 := mul_le_mul_of_nonneg_left h1 hb.le
    have e2 : ga * mn ≤ ga * u2 := mul_le_mul_of_nonneg_left h2 hc.le
    have hds : D * mn = al * mn + be * mn + ga * mn := by rw [← hsum]; ring
    have hDm : D * mn ≤ D * u := by linarith
    exact le_of_mul_le_mul_left hDm hD
  · set mx := max u0 (max u1 u2) with hmx
    have h0 : u0 ≤ mx := le_max_left _ _
    have h1 : u1 ≤ mx := le_trans (le_max_left _ _) (le_max_right _ _)
    have h2 : u2 ≤ mx := le_trans (le_max_right _ _) (le_max_right _ _)
    have e0 : al * u0 ≤ al * mx := mul_le_mul_of_nonneg_left h0 ha.le
    have e1 : be * u1 ≤ be * mx := mul_le_mul_of_nonneg_left h1 hb.le
    have e2 : ga * u2 ≤ ga * mx := mul_le_mul_of_nonneg_left h2 hc.le
    have hds : D * mx = al * mx + be * mx + ga * mx := by rw [← hsum]; ring
    have hDm : D * u ≤ D * mx := by linarith
    exact le_of_mul_le_mul_left hDm hD

theorem qsign_cases (x : ℚ) : qsign x = -1 ∨ qsign x = 0 ∨ qsign x = 1 := by
  unfold qsign
  split
  · tauto
  · split <;> tauto

theorem hasOnBoundedSide_bbox (p0 p1 p2 q : ℚ × ℚ)
    (h : hasOnBoundedSide p0 p1 p2 q = true) :
    min p0.1 (min p1.1 p2.1) ≤ q.1 ∧ q.1 ≤ max p0.1 (max p1.1 p2.1) ∧
    min p0.2 (min p1.2 p2.2) ≤ q.2 ∧ q.2 ≤ max p0.2 (max p1.2 p2.2) := by
  unfold hasOnBoundedSide triOrientation orient2dP at h
  simp only [Bool.and_eq_true, decide_eq_true_eq, Bool.decide_and] at h
  obtain ⟨hne, h0, h1, h2⟩ := h
  have hsum := det2_sum p0 p1 p2 q
  have hbx := det2_bary_x p0 p1 p2 q
  have hby := det2_bary_y p0 p1 p2 q
  rcases qsign_cases (det2 p0 p1 p2) with rr | rr | rr
  · rw [rr] at h0 h1 h2
    rw [qsign_eq_neg_one_iff] at rr h0 h1 h2
    have hsum2 : (-(det2 p1 p2 q)) + (-(det2 p2 p0 q)) + (-(det2 p0 p1 q)) =
        -(det2 p0 p1 p2) := by linarith
    have hbx2 : (-(det2 p1 p2 q)) * p0.1 + (-(det2 p2 p0 q)) * p1.1 +
        (-(det2 p0 p1 q)) * p2.1 = (-(det2 p0 p1 p2)) * q.1 := by linarith [hbx]
    have hby2 : (-(det2 p1 p2 q)) * p0.2 + (-(det2 p2 p0 q)) * p1.2 +
        (-(det2 p0 p1 q)) * p2.2 = (-(det2 p0 p1 p2)) * q.2 := by linarith [hby]
    have hx := bary_bounds _ _ _ _ p0.1 p1.1 p2.1 q.1 hsum2 hbx2
      (by linarith) (by linarith) (by linarith)
    have hy := bary_bounds _ _ _ _ p0.2 p1.2 p2.2 q.2 hsum2 hby2
      (by linarith) (by linarith) (by linarith)
    exact ⟨hx.1, hx.2, hy.1, hy.2⟩
  · exact absurd rr hne
  · rw [rr] at h0 h1 h2
    rw [qsign_eq_one_iff] at rr h0 h1 h2
    have hx := bary_bounds _ _ _ _ p0.1 p1.1 p2.1 q.1 hsum hbx h1 h2 h0
    have hy := bary_bounds _ _ _ _ p0.2 p1.2 p2.2 q.2 hsum hby h1 h2 h0
    exact ⟨hx.1, hx.2, hy.1, hy.2⟩

/-- Claim C4: an OnFace gvertex is created at the integer lattice point
`(x, y)` if and only if the face's UV triangle has nonzero orientation and
`(x, y)` lies strictly inside it; a zero-orientation triangle produces no
OnFace gvertex, and a lattice point lying exactly on a triangle edge
produces no OnFace gvertex for any triangle having that edge. -/
theorem C4_onface_gvertex (p0 p1 p2 : ℚ × ℚ) (x y : ℤ) :
    (onFaceGvertexAt p0 p1 p2 x y = true ↔
      (triOrientation p0 p1 p2 ≠ 0 ∧
        hasOnBoundedSide p0 p1 p2 ((x : ℚ), (y : ℚ)) = true)) ∧
    (triOrientation p0 p1 p2 = 0 → onFaceGvertexAt p0 p1 p2 x y = false) ∧
    ((segHasOn p0 p1 ((x : ℚ), (y : ℚ)) = true ∨
      segHasOn p1 p2 ((x : ℚ), (y : ℚ)) = true ∨
      segHasOn p2 p0 ((x : ℚ), (y : ℚ)) = true) →
      onFaceGvertexAt p0 p1 p2 x y = false) := by
  have hiff : onFaceGvertexAt p0 p1 p2 x y = true ↔
      (triOrientation p0 p1 p2 ≠ 0 ∧
        hasOnBoundedSide p0 p1 p2 ((x : ℚ), (y : ℚ)) = true) := by
    constructor
    · intro h
      unfold onFaceGvertexAt at h
      simp only [Bool.and_eq_true, decide_eq_true_eq, Bool.decide_and] at h
      tauto
    · rintro ⟨hori, hin⟩
      have hb := hasOnBoundedSide_bbox p0 p1 p2 ((x : ℚ), (y : ℚ)) hin
      unfold onFaceGvertexAt
      simp only [Bool.and_eq_true, decide_eq_true_eq, Bool.decide_and]
      refine ⟨hori, ?_, ?_, ?_, ?_, hin⟩
      · rw [Int.ceil_le]; exact hb.1
      · rw [Int.le_floor]; exact hb.2.1
      · rw [Int.ceil_le]; exact hb.2.2.1
      · rw [Int.le_floor]; exact hb.2.2.2
  refine ⟨hiff, ?_, ?_⟩
  · intro h0
    rw [← Bool.not_eq_true]
    intro hcon
    exact absurd h0 (hiff.mp hcon).1
  · intro hseg
    rw [← Bool.not_eq_true]
    intro hcon
    obtain ⟨hori, hin⟩ := hiff.mp hcon
    unfold hasOnBoundedSide triOrientation orient2dP at hin
    simp only [Bool.and_eq_true, decide_eq_true_eq, Bool.decide_and] at hin
    obtain ⟨hne, h0, h1, h2⟩ := hin
    unfold segHasOn orient2dP at hseg
    rcases hseg with hs | hs | hs <;>
      · simp only [Bool.and_eq_true, decide_eq_true_eq, Bool.decide_and] at hs
        first
          | (rw [hs.1] at h0; exact hne (by omega))
          | (rw [hs.1] at h1; exact hne (by omega))
          | (rw [hs.1] at h2; exact hne (by omega))

/-- Witness for C4: for the triangle `(0,0), (4,0), (0,4)` the lattice
point `(1,1)` is strictly inside and generated, and the on-edge lattice
point `(2,0)` is not generated. -/
theorem C4_onface_gvertex_witness :
    onFaceGvertexAt (0, 0) (4, 0) (0, 4) 1 1 = true ∧
    onFaceGvertexAt (0, 0) (4, 0) (0, 4) 2 0 = false := by
  constructor
  · exact (C4_onface_gvertex (0, 0) (4, 0) (0, 4) 1 1).1.mpr
      ⟨by norm_num [triOrientation, orient2dP, det2, qsign],
       by norm_num [hasOnBoundedSide, triOrientation, orient2dP, det2, qsign]⟩
  · exact (C4_onface_gvertex (0, 0) (4, 0) (0, 4) 2 0).2.2
      (Or.inl (by norm_num [segHasOn, orient2dP, det2, qsign]))

end QEx

namespace QEx

/-! ## Claim C7: `missing_leis` -/

/-- Claim C7 counterexample: an interior OnVertex gvertex whose four
quadrant sectors build one LEI each (four in total) while the supplied
external valence is `0`; the code of lines 914–922 then stores
`missing_leis = 0 − 4 = −4`, a negative value, contradicting the claim
that `missing_leis` never takes a negative value. -/
theorem C7_missing_leis_counterexample :
    (construct_local_edge_information_vertex
      [⟨(0, 0), (1, 0), (0, 1), false, 0⟩, ⟨(0, 0), (0, 1), (-1, 0), false, 1⟩,
       ⟨(0, 0), (-1, 0), (0, -1), false, 2⟩, ⟨(0, 0), (0, -1), (1, 0), false, 3⟩]
      (some 0) 0 false).2 = -4 := by
  norm_num [construct_local_edge_information_vertex, sectorLeis, cartDirs,
    orient2dV, orient2dP, triOrientation, det2, qsign]

/-- Claim C7 (amended): after OnVertex local-edge construction,
`missing_leis` equals the expected LEI count (the external valence when
supplied, otherwise the rounded angle-sum quotient) minus the number of
local edges actually built, and it is forced to `0` for boundary
gvertices; it can be negative when more local edges are built than
expected. -/
theorem C7_missing_leis_amended (sectors : List SectorInput)
    (ext : Option ℕ) (rn : ℤ) :
    (construct_local_edge_information_vertex sectors ext rn true).2 = 0 ∧
    (construct_local_edge_information_vertex sectors ext rn false).2 =
      (match ext with | some k => (k : ℤ) | none => rn) -
        ((construct_local_edge_information_vertex sectors ext rn false).1.length : ℤ) := by
  constructor
  · rfl
  · cases ext <;> rfl

end QEx

namespace QEx

/-! ## List access lemmas for the gvertex state -/

theorem list_getD_set_self {α : Type} [Inhabited α] (l : List α) (i : ℕ) (x : α)
    (h : i < l.length) : (l.set i x).getD i default = x := by
  induction l generalizing i with
  | nil => simp at h
  | cons y t ih =>
      cases i with
      | zero => rfl
      | succ k =>
          simp only [List.set]
          exact ih k (by simpa using h)

theorem list_getD_set_ne {α : Type} [Inhabited α] (l : List α) (i k : ℕ) (x : α)
    (h : k ≠ i) : (l.set i x).getD k default = l.getD k default := by
  induction l generalizing i k with
  | nil => simp
  | cons y t ih =>
      cases i with
      | zero =>
          cases k with
          | zero => omega
          | succ k2 => rfl
      | succ i2 =>
          cases k with
          | zero => rfl
          | succ k2 => exact ih i2 k2 (by omega)

theorem list_getD_insert_self {α : Type} [Inhabited α] (l : List α) (k : ℕ) (x : α)
    (h : k ≤ l.length) : (l.take k ++ x :: l.drop k).getD k default = x := by
  induction k generalizing l with
  | zero => rfl
  | succ k2 ih =>
      cases l with
      | nil => simp at h
      | cons y t =>
          simp only [List.take, List.drop, List.cons_append]
          exact ih t (by simpa using h)

theorem list_length_insert {α : Type} (l : List α) (k : ℕ) (x : α) :
    (l.take k ++ x :: l.drop k).length = l.length + 1 := by
  simp only [List.length_append, List.length_take, List.length_cons, List.length_drop]
  omega

theorem updateLei_gvslength (gvs : List GVC) (i j : ℕ) (f : LEIC → LEIC) :
    (updateLei gvs i j f).length = gvs.length := by
  simp [updateLei]

theorem getGv_updateLei_ne (gvs : List GVC) (i j : ℕ) (f : LEIC → LEIC) (k : ℕ)
    (h : k ≠ i) : getGv (updateLei gvs i j f) k = getGv gvs k := by
  unfold getGv updateLei
  exact list_getD_set_ne _ _ _ _ h

theorem getLei_updateLei_self (gvs : List GVC) (i j : ℕ) (f : LEIC → LEIC)
    (hi : i < gvs.length) (hj : j < (getGv gvs i).local_edges.length) :
    getLei (updateLei gvs i j f) i j = f (getLei gvs i j) := by
  unfold getLei updateLei
  rw [show getGv (gvs.set i { getGv gvs i with
      local_edges := (getGv gvs i).local_edges.set j (f (getLei gvs i j)) }) i =
    { getGv gvs i with
      local_edges := (getGv gvs i).local_edges.set j (f (getLei gvs i j)) } from
    list_getD_set_self _ _ _ hi]
  exact list_getD_set_self _ _ _ hj

theorem getLei_updateLei_ne (gvs : List GVC) (i j : ℕ) (f : LEIC → LEIC)
    (k l : ℕ) (h : (k, l) ≠ (i, j)) :
    getLei (updateLei gvs i j f) k l = getLei gvs k l := by
  by_cases hk : k = i
  · subst hk
    have hl : l ≠ j := by
      intro hcon
      exact h (by rw [hcon])
    unfold getLei updateLei
    by_cases hi : k < gvs.length
    · rw [show getGv (gvs.set k _) k = _ from list_getD_set_self _ _ _ hi]
      exact list_getD_set_ne _ _ _ _ hl
    · rw [List.set_eq_of_length_le (by omega)]
  · unfold getLei
    rw [getGv_updateLei_ne _ _ _ _ _ hk]

theorem getGv_updateLei_length (gvs : List GVC) (i j : ℕ) (f : LEIC → LEIC) (k : ℕ) :
    (getGv (updateLei gvs i j f) k).local_edges.length =
      (getGv gvs k).local_edges.length := by
  by_cases hk : k = i
  · subst hk
    by_cases hi : k < gvs.length
    · unfold getGv updateLei
      rw [list_getD_set_self _ _ _ hi]
      simp [getGv]
    · unfold updateLei
      rw [List.set_eq_of_length_le (by omega)]
  · rw [getGv_updateLei_ne _ _ _ _ _ hk]

theorem incOppOne_gvslength (gvs : List GVC) (s k : ℕ) :
    (incOppOne gvs s k).length = gvs.length := by
  by_cases h : (getLei gvs s k).connected_to_idx ≥ 0 <;>
    simp [incOppOne, h, updateLei_gvslength]

theorem incOppOne_lelength (gvs : List GVC) (s k t : ℕ) :
    (getGv (incOppOne gvs s k) t).local_edges.length =
      (getGv gvs t).local_edges.length := by
  by_cases h : (getLei gvs s k).connected_to_idx ≥ 0 <;>
    simp [incOppOne, h, getGv_updateLei_length]

theorem incrementOppRange_gvslength (gvs : List GVC) (s start : ℕ) :
    (incrementOppRange gvs s start).length = gvs.length := by
  unfold incrementOppRange
  generalize List.range' start ((getGv gvs s).local_edges.length - start) = idxs
  induction idxs generalizing gvs with
  | nil => rfl
  | cons x t ih => simp only [List.foldl]; rw [ih, incOppOne_gvslength]

theorem incrementOppRange_lelength (gvs : List GVC) (s start t : ℕ) :
    (getGv (incrementOppRange gvs s start) t).local_edges.length =
      (getGv gvs t).local_edges.length := by
  unfold incrementOppRange
  generalize List.range' start ((getGv gvs s).local_edges.length - start) = idxs
  induction idxs generalizing gvs with
  | nil => rfl
  | cons x t2 ih => simp only [List.foldl]; rw [ih, incOppOne_lelength]

theorem insertLeiAt_gvslength (gvs : List GVC) (i k : ℕ) (lei : LEIC) :
    (insertLeiAt gvs i k lei).length = gvs.length := by
  simp [insertLeiAt]

theorem getGv_insertLeiAt_ne (gvs : List GVC) (i k : ℕ) (lei : LEIC) (t : ℕ)
    (h : t ≠ i) : getGv (insertLeiAt gvs i k lei) t = getGv gvs t := by
  unfold getGv insertLeiAt
  exact list_getD_set_ne _ _ _ _ h

theorem getGv_insertLeiAt_length (gvs : List GVC) (i k : ℕ) (lei : LEIC)
    (hi : i < gvs.length) :
    (getGv (insertLeiAt gvs i k lei) i).local_edges.length =
      (getGv gvs i).local_edges.length + 1 := by
  unfold getGv insertLeiAt
  rw [list_getD_set_self _ _ _ hi]
  exact list_length_insert _ _ _

theorem getLei_insertLeiAt_self (gvs : List GVC) (i k : ℕ) (lei : LEIC)
    (hi : i < gvs.length) (hk : k ≤ (getGv gvs i).local_edges.length) :
    getLei (insertLeiAt gvs i k lei) i k = lei := by
  unfold getLei insertLeiAt
  rw [show getGv (gvs.set i _) i = _ from list_getD_set_self _ _ _ hi]
  exact list_getD_insert_self _ _ _ hk

/-! ## TF sandwich lemmas for the repair transitions -/

theorem inv_sandwich_apply (P Q acc : TF) (q : ℚ × ℚ) :
    (P.comp (Q.inverse.comp acc.inverse)).inverse.apply q =
      acc.apply (Q.apply (P.inverse.apply q)) := by
  have h := TF.apply_inverse_apply (P.comp (Q.inverse.comp acc.inverse))
    (acc.apply (Q.apply (P.inverse.apply q)))
  rw [TF.apply_comp, TF.apply_comp, TF.apply_inverse_apply, TF.apply_inverse_apply,
    TF.apply_apply_inverse] at h
  exact h

theorem repair_tf_conjugate (acc P Q R S' : TF) :
    ((R.inverse.comp (acc.comp S'.inverse)).inverse).comp
      (R.inverse.comp (((P.comp (Q.inverse.comp acc.inverse)).inverse).comp S'.inverse)) =
      S'.comp (Q.comp (P.inverse.comp S'.inverse)) := by
  apply TF.eq_of_apply
  · exact (TF.comp_r_mem _ _).1
  · exact (TF.comp_r_mem _ _).2
  · exact (TF.comp_r_mem _ _).1
  · exact (TF.comp_r_mem _ _).2
  · intro p
    simp only [TF.apply_comp]
    rw [inv_sandwich_apply]
    have hz := TF.apply_inverse_apply (R.inverse.comp (acc.comp S'.inverse))
      (S'.apply (Q.apply (P.inverse.apply (S'.inverse.apply p))))
    simp only [TF.apply_comp] at hz
    rw [TF.apply_inverse_apply] at hz
    exact hz

theorem repair_conj_id (P S' : TF) :
    S'.comp (P.comp (P.inverse.comp S'.inverse)) = TF.identity := by
  apply TF.eq_of_apply
  · exact (TF.comp_r_mem _ _).1
  · exact (TF.comp_r_mem _ _).2
  · norm_num [TF.identity]
  · norm_num [TF.identity]
  · intro p
    rw [TF.apply_identity]
    simp only [TF.apply_comp]
    rw [TF.apply_apply_inverse, TF.apply_apply_inverse]

end QEx

namespace QEx

/-- Claim C1 (amended): reciprocity of connections.  Part 1: when the
connector (`generate_connections`) records that gvertex `i`'s local edge
`j` is connected to `(c, o)`, the written state is a reciprocal pair whose
accumulated transitions compose to the identity after accounting for the
intra-gvertex transitions.  Part 2: the matched LEI pair inserted by the
fan repair (`try_connect_incomplete_gvertices`) always points back at
itself, but its accumulated transitions compose — under the same
accounting — to the conjugate `S' ∘ Q ∘ P⁻¹ ∘ S'⁻¹` of the two
`intra_gv_transition` values of lines 1036–1037; this is the identity
exactly when those two values agree (`Q = P`), which holds whenever the
cycle-successor slot `final_lei` is a different LEI than the traced one
(the flag of the line-1037 call is then true, making both calls
identical). -/
theorem C1_connection_reciprocity_amended :
    (∀ (gvs : List GVC) (i j c o : ℕ) (uvTo : ℚ × ℚ) (acc iP iS : TF),
      i < gvs.length → j < (getGv gvs i).local_edges.length →
      c < gvs.length → o < (getGv gvs c).local_edges.length →
      (i, j) ≠ (c, o) →
      isUnconnectedOrSignal (getLei gvs c o) = true →
      reciprocalPair (generate_connections_step gvs i j c o uvTo acc iP iS) i j c o iP iS) ∧
    (∀ (gvs : List GVC) (s a n q : ℕ) (acc P Q R S' : TF),
      s < gvs.length → n < gvs.length → s ≠ n →
      a < (getGv gvs s).local_edges.length →
      q ≤ (getGv gvs n).local_edges.length →
      (getLei (try_connect_insert gvs s a n q acc P Q R S') s (a + 1)).connected_to_idx
        = (n : ℤ) ∧
      (getLei (try_connect_insert gvs s a n q acc P Q R S') s (a + 1)).orientation_idx
        = (q : ℤ) ∧
      (getLei (try_connect_insert gvs s a n q acc P Q R S') n q).connected_to_idx
        = (s : ℤ) ∧
      (getLei (try_connect_insert gvs s a n q acc P Q R S') n q).orientation_idx
        = (a : ℤ) + 1 ∧
      (getLei (try_connect_insert gvs s a n q acc P Q R S') n q).accumulated_tf.comp
        (R.inverse.comp
          ((getLei (try_connect_insert gvs s a n q acc P Q R S') s (a + 1)).accumulated_tf.comp
            S'.inverse))
        = S'.comp (Q.comp (P.inverse.comp S'.inverse)) ∧
      (Q = P →
        reciprocalPair (try_connect_insert gvs s a n q acc P Q R S') s (a + 1) n q R S')) := by
  constructor
  · intro gvs i j c o uvTo acc iP iS hi hj hc ho hne hpeer
    have hco : getLei (updateLei gvs i j (completeInfo (c : ℤ) (o : ℤ) uvTo acc)) c o
        = getLei gvs c o := getLei_updateLei_ne _ _ _ _ _ _ (by
          intro hcon
          exact hne (by rw [Prod.mk.injEq] at hcon ⊢; exact ⟨hcon.1.symm, hcon.2.symm⟩))
    have hij1 : getLei (updateLei gvs i j (completeInfo (c : ℤ) (o : ℤ) uvTo acc)) i j
        = completeInfo (c : ℤ) (o : ℤ) uvTo acc (getLei gvs i j) :=
      getLei_updateLei_self _ _ _ _ hi hj
    set rev0 := iP.inverse.comp (acc.comp iS.inverse) with hrev
    set oppTo := rev0.apply
      (getGv (updateLei gvs i j (completeInfo (c : ℤ) (o : ℤ) uvTo acc)) i).position_uv with hopp
    have hstep : generate_connections_step gvs i j c o uvTo acc iP iS =
        updateLei (updateLei gvs i j (completeInfo (c : ℤ) (o : ℤ) uvTo acc)) c o
          (completeInfo (i : ℤ) (j : ℤ) oppTo rev0.inverse) := by
      simp only [generate_connections_step]
      rw [hco, hpeer, hij1]
      rfl
    rw [hstep]
    have hlen1 : (updateLei gvs i j (completeInfo (c : ℤ) (o : ℤ) uvTo acc)).length
        = gvs.length := updateLei_gvslength _ _ _ _
    have hijf : getLei (updateLei (updateLei gvs i j (completeInfo (c : ℤ) (o : ℤ) uvTo acc)) c o
        (completeInfo (i : ℤ) (j : ℤ) oppTo rev0.inverse)) i j
        = completeInfo (c : ℤ) (o : ℤ) uvTo acc (getLei gvs i j) := by
      rw [getLei_updateLei_ne _ _ _ _ _ _ hne, hij1]
    have hcof : getLei (updateLei (updateLei gvs i j (completeInfo (c : ℤ) (o : ℤ) uvTo acc)) c o
        (completeInfo (i : ℤ) (j : ℤ) oppTo rev0.inverse)) c o
        = completeInfo (i : ℤ) (j : ℤ) oppTo rev0.inverse
            (getLei (updateLei gvs i j (completeInfo (c : ℤ) (o : ℤ) uvTo acc)) c o) := by
      apply getLei_updateLei_self
      · rw [hlen1]; exact hc
      · rw [getGv_updateLei_length]; exact ho
    unfold reciprocalPair
    rw [hijf, hcof]
    refine ⟨rfl, rfl, rfl, rfl, ?_⟩
    show (iP.inverse.comp (acc.comp iS.inverse)).inverse.comp
      (iP.inverse.comp (acc.comp iS.inverse)) = TF.identity
    exact TF.inverse_comp_cancel _
  · intro gvs s a n q acc P Q R S' hs hn hsn ha hq
    set g2 := incrementOppRange (incrementOppRange gvs s (a + 1)) n q with hg2
    have hg2len : g2.length = gvs.length := by
      rw [hg2, incrementOppRange_gvslength, incrementOppRange_gvslength]
    have hg2le : ∀ t, (getGv g2 t).local_edges.length = (getGv gvs t).local_edges.length := by
      intro t
      rw [hg2, incrementOppRange_lelength, incrementOppRange_lelength]
    set newIn0 : LEIC := ⟨(getLei gvs s a).fh_from, (getLei gvs s a).uv_from,
      (getLei gvs s a).uv_from, (0, 0), -1, -1, TF.identity, -1, false⟩ with hni
    set newOut0 : LEIC := ⟨(getLei gvs n q).fh_from, (getLei gvs n q).uv_from,
      (getLei gvs n q).uv_from, (0, 0), -1, -1, TF.identity, -1, false⟩ with hno
    set g3 := insertLeiAt g2 s (a + 1) newIn0 with hg3
    set g4 := insertLeiAt g3 n q newOut0 with hg4
    have hstep : try_connect_insert gvs s a n q acc P Q R S' =
        updateLei (updateLei g4 s (a + 1)
          (completeInfo (n : ℤ) (q : ℤ) (getLei gvs s a).uv_from
            (P.comp (Q.inverse.comp acc.inverse)).inverse)) n q
          (completeInfo (s : ℤ) ((a : ℤ) + 1) (getLei gvs n q).uv_from
            (R.inverse.comp (acc.comp S'.inverse)).inverse) := by
      rfl
    have hg4len : g4.length = gvs.length := by
      rw [hg4, insertLeiAt_gvslength, hg3, insertLeiAt_gvslength, hg2len]
    have hg4sle : (getGv g4 s).local_edges.length = (getGv gvs s).local_edges.length + 1 := by
      rw [hg4, hg3]
      rw [show getGv (insertLeiAt (insertLeiAt g2 s (a + 1) newIn0) n q newOut0) s
          = getGv (insertLeiAt g2 s (a + 1) newIn0) s from
        getGv_insertLeiAt_ne _ _ _ _ _ hsn]
      rw [getGv_insertLeiAt_length _ _ _ _ (by rw [hg2len]; exact hs), hg2le]
    have hg4nle : (getGv g4 n).local_edges.length = (getGv gvs n).local_edges.length + 1 := by
      rw [hg4]
      rw [getGv_insertLeiAt_length _ _ _ _ (by rw [hg3, insertLeiAt_gvslength, hg2len]; exact hn)]
      rw [hg3]
      rw [show getGv (insertLeiAt g2 s (a + 1) newIn0) n = getGv g2 n from
        getGv_insertLeiAt_ne _ _ _ _ _ (Ne.symm hsn)]
      rw [hg2le]
    have h5slen : (updateLei g4 s (a + 1)
        (completeInfo (n : ℤ) (q : ℤ) (getLei gvs s a).uv_from
          (P.comp (Q.inverse.comp acc.inverse)).inverse)).length = gvs.length := by
      rw [updateLei_gvslength, hg4len]
    have hfinS : getLei (updateLei (updateLei g4 s (a + 1)
        (completeInfo (n : ℤ) (q : ℤ) (getLei gvs s a).uv_from
          (P.comp (Q.inverse.comp acc.inverse)).inverse)) n q
        (completeInfo (s : ℤ) ((a : ℤ) + 1) (getLei gvs n q).uv_from
          (R.inverse.comp (acc.comp S'.inverse)).inverse)) s (a + 1)
        = completeInfo (n : ℤ) (q : ℤ) (getLei gvs s a).uv_from
            (P.comp (Q.inverse.comp acc.inverse)).inverse (getLei g4 s (a + 1)) := by
      rw [getLei_updateLei_ne _ _ _ _ _ _ (by
        intro hcon
        rw [Prod.mk.injEq] at hcon
        exact hsn hcon.1)]
      apply getLei_updateLei_self
      · rw [hg4len]; exact hs
      · rw [hg4sle]; omega
    have hfinN : getLei (updateLei (updateLei g4 s (a + 1)
        (completeInfo (n : ℤ) (q : ℤ) (getLei gvs s a).uv_from
          (P.comp (Q.inverse.comp acc.inverse)).inverse)) n q
        (completeInfo (s : ℤ) ((a : ℤ) + 1) (getLei gvs n q).uv_from
          (R.inverse.comp (acc.comp S'.inverse)).inverse)) n q
        = completeInfo (s : ℤ) ((a : ℤ) + 1) (getLei gvs n q).uv_from
            (R.inverse.comp (acc.comp S'.inverse)).inverse
            (getLei (updateLei g4 s (a + 1)
              (completeInfo (n : ℤ) (q : ℤ) (getLei gvs s a).uv_from
                (P.comp (Q.inverse.comp acc.inverse)).inverse)) n q) := by
      apply getLei_updateLei_self
      · rw [h5slen]; exact hn
      · rw [getGv_updateLei_length, hg4nle]; omega
    rw [hstep, hfinS, hfinN]
    refine ⟨rfl, rfl, rfl, rfl, repair_tf_conjugate acc P Q R S', ?_⟩
    intro hQP
    subst hQP
    unfold reciprocalPair
    rw [hfinS, hfinN]
    refine ⟨rfl, rfl, rfl, by push_cast; rfl, ?_⟩
    have hc := repair_tf_conjugate acc Q Q R S'
    rw [repair_conj_id] at hc
    exact hc

end QEx

namespace QEx

/-- Witness for C1 (amended): a two-gvertex state, each with one slot; the
connector's write produces a reciprocal pair, and the repair insertion
with agreeing intra-gvertex transitions (`Q = P`) does too. -/
theorem C1_connection_reciprocity_amended_witness :
    reciprocalPair (generate_connections_step
      [⟨0, 0, (0, 0), [default]⟩, ⟨0, 0, (1, 0), [default]⟩] 0 0 1 0 (1, 0)
      TF.identity TF.identity TF.identity) 0 0 1 0 TF.identity TF.identity ∧
    reciprocalPair (try_connect_insert
      [⟨0, 0, (0, 0), [default]⟩, ⟨0, 0, (1, 0), [default]⟩] 0 0 1 0
      TF.identity TF.identity TF.identity TF.identity TF.identity) 0 1 1 0
      TF.identity TF.identity :=
  ⟨C1_connection_reciprocity_amended.1
      [⟨0, 0, (0, 0), [default]⟩, ⟨0, 0, (1, 0), [default]⟩] 0 0 1 0 (1, 0)
      TF.identity TF.identity TF.identity
      (by decide) (by decide) (by decide) (by decide) (by decide) (by decide),
   (C1_connection_reciprocity_amended.2
      [⟨0, 0, (0, 0), [default]⟩, ⟨0, 0, (1, 0), [default]⟩] 0 0 1 0
      TF.identity TF.identity TF.identity TF.identity TF.identity
      (by decide) (by decide) (by decide) (by decide) (by decide)).2.2.2.2.2 rfl⟩

end QEx

namespace QEx

/-- Claim C1, counterexample to the original universal statement: at a
single-local-edge start gvertex over a singular vertex the repair's two
`intra_gv_transition` values of lines 1036–1037 differ — the flag-false
call runs the full fan loop, here the rotation by `90°` — and although the
inserted pair still points back at itself, the two accumulated transitions
compose to that rotation instead of the identity, so the pair is not
reciprocal in the claimed sense. -/
theorem C1_connection_reciprocity_counterexample :
    intra_gv_transition singularFanMesh 5 5 (getGv singleLeiGvs 0) false ≠
      intra_gv_transition singularFanMesh 5 5 (getGv singleLeiGvs 0) true ∧
    (getLei singleLeiRepairState 0 1).connected_to_idx = 1 ∧
    (getLei singleLeiRepairState 1 0).connected_to_idx = 0 ∧
    (getLei singleLeiRepairState 1 0).orientation_idx = 1 ∧
    ¬ reciprocalPair singleLeiRepairState 0 1 1 0
      (intra_gv_transition singularFanMesh 5 5 (getGv singleLeiGvs 1) true)
      (intra_gv_transition singularFanMesh 5 5 (getGv singleLeiGvs 0) true) := by
  refine ⟨by decide, by decide, by decide, by decide, fun h => absurd h.2.2.2.2 (by decide)⟩

end QEx

namespace QEx

theorem walkLoop_bounded_spec (m : WalkMesh) (fuel : ℕ) (cfg : WalkCfg) :
    (∃ k, 0 < k ∧ k ≤ fuel ∧ ∃ r, runSteps m k cfg = Sum.inr r ∧
      walkLoop m fuel cfg = r) ∨
    walkLoop m fuel cfg = FPResult.error := by
  induction fuel generalizing cfg with
  | zero => right; rfl
  | succ f ih =>
      cases hs : stepWalk m cfg with
      | inl r =>
          left
          exact ⟨1, by omega, by omega, r, by simp [runSteps, hs], by simp [walkLoop, hs]⟩
      | inr c =>
          rcases ih c with ⟨k, hk0, hkf, r, hrun, hloop⟩ | herr
          · left
            refine ⟨k + 1, by omega, by omega, r, ?_, ?_⟩
            · simp [runSteps, hs, hrun]
            · simp [walkLoop, hs, hloop]
          · right
            simp [walkLoop, hs, herr]

/-- Claim C8: `find_path` always terminates — its main walking loop
executes at most 100000 iterations per traced local edge info, and when
the iteration budget is exhausted without resolving the trace it returns
an error result instead of looping further. -/
theorem C8_find_path_loop_bounded (m : WalkMesh) (cfg : WalkCfg) :
    (∃ k, 0 < k ∧ k ≤ 100000 ∧ ∃ r, runSteps m k cfg = Sum.inr r ∧
      walkLoop m 100000 cfg = r) ∨
    walkLoop m 100000 cfg = FPResult.error :=
  walkLoop_bounded_spec m 100000 cfg

end QEx

namespace QEx

theorem faceWalkAux_length (gvs : List GVC) (i : ℕ) (fuel : ℕ) (cur ori : ℤ)
    (acc : List ℕ) (l : List ℕ)
    (h : (faceWalkAux gvs i fuel cur ori acc).1 = some l) :
    2 < l.length ∧ l.length ≤ acc.length + fuel := by
  induction fuel generalizing gvs cur ori acc with
  | zero => simp [faceWalkAux] at h
  | succ f ih =>
      unfold faceWalkAux at h
      by_cases h1 : 0 ≤ cur
      · rw [if_pos h1] at h
        by_cases h2 : cur = (i : ℤ) ∧ acc ≠ []
        · rw [if_pos h2] at h
          by_cases h3 : 2 < acc.length
          · rw [if_pos h3] at h
            simp at h
            subst h
            exact ⟨h3, by omega⟩
          · rw [if_neg h3] at h
            simp at h
        · rw [if_neg h2] at h
          by_cases h4 : (getLei gvs cur.toNat
              (wrapIdx (getGv gvs cur.toNat).local_edges.length ori)).face_constructed
          · rw [if_pos h4] at h
            simp at h
          · rw [if_neg h4] at h
            have := ih _ _ _ _ h
            simp only [List.length_append, List.length_cons, List.length_nil] at this
            exact ⟨this.1, by omega⟩
      · rw [if_neg h1] at h
        simp at h

/-- Claim C10: every face candidate realized by the face-assembly cycle
walk has at least 3 and at most 100 vertices — the walk is capped at 100
steps and a face is only created when the walk returns to its starting
gvertex with more than two collected vertices. -/
theorem C10_face_walk_bounded (gvs : List GVC) (i j : ℕ) (l : List ℕ)
    (h : (faceWalk gvs i j).1 = some l) : 3 ≤ l.length ∧ l.length ≤ 100 := by
  have := faceWalkAux_length gvs i 100 (i : ℤ) (j : ℤ) [] l h
  exact ⟨by omega, by simpa using this.2⟩

/-- Witness for C10: a four-gvertex cycle realizes a quadrilateral. -/
theorem C10_face_walk_bounded_witness :
    (faceWalk
      [⟨0, 0, (0, 0), [⟨0, (0, 0), (0, 0), (0, 0), 1, 0, TF.identity, -1, false⟩]⟩,
       ⟨0, 0, (0, 0), [⟨0, (0, 0), (0, 0), (0, 0), 2, 0, TF.identity, -1, false⟩]⟩,
       ⟨0, 0, (0, 0), [⟨0, (0, 0), (0, 0), (0, 0), 3, 0, TF.identity, -1, false⟩]⟩,
       ⟨0, 0, (0, 0), [⟨0, (0, 0), (0, 0), (0, 0), 0, 0, TF.identity, -1, false⟩]⟩]
      0 0).1 = some [0, 1, 2, 3] ∧
    (3 ≤ [0, 1, 2, 3].length ∧ [0, 1, 2, 3].length ≤ 100) := by
  constructor
  · decide
  · exact C10_face_walk_bounded
      [⟨0, 0, (0, 0), [⟨0, (0, 0), (0, 0), (0, 0), 1, 0, TF.identity, -1, false⟩]⟩,
       ⟨0, 0, (0, 0), [⟨0, (0, 0), (0, 0), (0, 0), 2, 0, TF.identity, -1, false⟩]⟩,
       ⟨0, 0, (0, 0), [⟨0, (0, 0), (0, 0), (0, 0), 3, 0, TF.identity, -1, false⟩]⟩,
       ⟨0, 0, (0, 0), [⟨0, (0, 0), (0, 0), (0, 0), 0, 0, TF.identity, -1, false⟩]⟩]
      0 0 [0, 1, 2, 3] (by decide)

end QEx

namespace QEx

/-- Claim C2: manifold-safe face creation is atomic — if any local edge
info in the cycle passed to `add_face` violates the manifoldness
pre-check (an existing output halfedge already attached to a face, or a
pre-checked previous/next halfedge around the opposite gvertex already
face-attached), then `add_face` returns the invalid face handle `-1` and
the output mesh and LEI state are left completely unchanged. -/
theorem C2_add_face_atomic (st : AFState) (cycle : List (ℕ × ℕ))
    (h : ∃ gl ∈ cycle, addFaceViolation st gl = true) :
    add_face st cycle = (-1, st) := by
  have hb : add_face_check_fails st cycle = true := by
    rw [add_face_check_fails, List.any_eq_true]
    obtain ⟨gl, hmem, hgl⟩ := h
    exact ⟨gl, hmem, hgl⟩
  simp [add_face, hb]

/-- Witness for C2: a one-LEI cycle whose halfedge is already attached to
face `0`; `add_face` returns `-1` and the state is unchanged. -/
theorem C2_add_face_atomic_witness :
    add_face
      ⟨⟨[⟨0, 0, -1, -1⟩, ⟨1, -1, -1, -1⟩], 1, [0], [0, -1]⟩,
       [⟨0, 0, (0, 0), [⟨0, (0, 0), (0, 0), (0, 0), 0, 0, TF.identity, 0, false⟩]⟩]⟩
      [(0, 0)] =
    (-1, ⟨⟨[⟨0, 0, -1, -1⟩, ⟨1, -1, -1, -1⟩], 1, [0], [0, -1]⟩,
       [⟨0, 0, (0, 0), [⟨0, (0, 0), (0, 0), (0, 0), 0, 0, TF.identity, 0, false⟩]⟩]⟩) :=
  C2_add_face_atomic
    ⟨⟨[⟨0, 0, -1, -1⟩, ⟨1, -1, -1, -1⟩], 1, [0], [0, -1]⟩,
     [⟨0, 0, (0, 0), [⟨0, (0, 0), (0, 0), (0, 0), 0, 0, TF.identity, 0, false⟩]⟩]⟩
    [(0, 0)] ⟨(0, 0), by decide, by decide⟩

end QEx

namespace QEx

/-! ## Claim C9: idempotence of `consistent_truncation` -/

theorem updUV_self_val (x : UV) (h : ℕ) : updUV x h (x h) = x := by
  funext k
  unfold updUV
  split
  · rename_i hk
    rw [hk]
  · rfl

theorem processVertex_not_incoming (m : TruncMesh) (uv : UV) (v : VertexEntry)
    (h : ℕ) (hh : h ∉ v.incoming) : processVertex m uv v h = uv h := by
  unfold processVertex
  cases hv : v.incoming with
  | nil => rfl
  | cons a rest =>
      rw [hv] at hh
      simp only [List.mem_cons] at hh
      push_neg at hh
      apply applyWrites_not_mem
      unfold vertexWrites
      rw [hv]
      simp only [List.map_cons, List.mem_cons]
      push_neg
      refine ⟨hh.1, ?_⟩
      intro hmem
      exact hh.2 (List.Sublist.mem hmem (propagateF_keys_sublist m rest _))

theorem foldl_pv_fixed (m : TruncMesh) (l : List VertexEntry) (h : ℕ)
    (hfix : ∀ w ∈ l, ∀ x : UV, processVertex m x w h = x h) :
    ∀ uv : UV, (l.foldl (processVertex m) uv) h = uv h := by
  induction l with
  | nil => intro uv; rfl
  | cons v t ih =>
      intro uv
      simp only [List.foldl]
      rw [ih (fun w hw => hfix w (List.mem_cons_of_mem v hw))]
      exact hfix v (List.mem_cons_self v t) uv

theorem propagateF_keys_not_boundary (m : TruncMesh) (l : List ℕ) (c : ℚ × ℚ)
    (h : ℕ) (hmem : h ∈ (propagateF m l c).map Prod.fst) :
    m.heBoundary h = false := by
  induction l generalizing c with
  | nil => simp [propagateF] at hmem
  | cons x t ih =>
      by_cases hb : m.heBoundary x = true
      · simp only [propagateF, if_pos hb] at hmem
        exact ih _ hmem
      · simp only [propagateF, if_neg hb, List.map_cons] at hmem
        cases hmem with
        | head => simpa using hb
        | tail _ hmem2 => exact ih _ hmem2

theorem anchorVal_boundary (m : TruncMesh) (v : VertexEntry) (x : ℚ × ℚ)
    (hb : v.isBoundaryV = true) : anchorVal m v x = x := by
  simp only [anchorVal]
  rw [if_neg (by rw [hb]; simp)]
  simp

theorem anchorVal_const_or_id (m : TruncMesh) (v : VertexEntry) :
    (∀ x, anchorVal m v x = x) ∨
    (∀ x, anchorVal m v x = fixedPointUV (vertexTransition m v)) := by
  by_cases h1 : (!v.isBoundaryV && decide (vertexTransition m v ≠ TF.identity)) = true
  · by_cases h2 : (vertexTransition m v).r = 1 ∨ (vertexTransition m v).r = 2 ∨
        (vertexTransition m v).r = 3
    · right
      intro x
      simp only [anchorVal]
      rw [if_pos h1, if_pos h2]
    · left
      intro x
      simp only [anchorVal]
      rw [if_pos h1, if_neg h2]
      simp
  · left
    intro x
    simp only [anchorVal]
    rw [if_neg h1]
    simp

theorem anchorVal_idem (m : TruncMesh) (v : VertexEntry) (x : ℚ × ℚ) :
    anchorVal m v (anchorVal m v x) = anchorVal m v x := by
  rcases anchorVal_const_or_id m v with h | h
  · rw [h, h]
  · rw [h, h]

theorem vertexWrites_anchorVal (m : TruncMesh) (v : VertexEntry) (x : ℚ × ℚ) :
    vertexWrites m v (anchorVal m v x) = vertexWrites m v x := by
  unfold vertexWrites
  cases v.incoming with
  | nil => rfl
  | cons a rest => rw [anchorVal_idem]

theorem applyWrites_lookup (L : List (ℕ × (ℚ × ℚ))) (uv : UV) (h : ℕ) (p : ℚ × ℚ)
    (hnd : (L.map Prod.fst).Nodup) (hmem : (h, p) ∈ L) :
    applyWrites L uv h = p := by
  induction L generalizing uv with
  | nil => simp at hmem
  | cons x t ih =>
      simp only [List.map_cons, List.nodup_cons] at hnd
      rcases List.mem_cons.mp hmem with rfl | hmem2
      · simp only [applyWrites]
        rw [applyWrites_not_mem _ _ _ hnd.1, updUV_self]
      · exact ih _ hnd.2 hmem2

theorem applyWrites_eq_self (L : List (ℕ × (ℚ × ℚ))) (z : UV)
    (hval : ∀ pr ∈ L, z pr.1 = pr.2) : ∀ h, applyWrites L z h = z h := by
  induction L with
  | nil => intro h; rfl
  | cons x t ih =>
      intro h
      simp only [applyWrites]
      have hx : z x.1 = x.2 := hval x (List.mem_cons_self x t)
      have hupd : updUV z x.1 x.2 = z := by
        rw [← hx]
        exact updUV_self_val z x.1
      rw [hupd]
      exact ih (fun pr hpr => hval pr (List.mem_cons_of_mem x hpr)) h

end QEx

namespace QEx

theorem snapPairQ_idem (a b : ℚ) :
    snapPairQ (snapPairQ a b).1 (snapPairQ a b).2 = snapPairQ a b := by
  by_cases hc : |a - (roundQME a : ℚ)| < 1/10000 ∧ |b - (roundQME b : ℚ)| < 1/10000
  · have h1 : snapPairQ a b = ((roundQME a : ℚ), (roundQME b : ℚ)) := by
      unfold snapPairQ
      rw [if_pos hc]
    rw [h1]
    unfold snapPairQ
    rw [if_pos ⟨by rw [roundQME_intCast]; norm_num, by rw [roundQME_intCast]; norm_num⟩]
    rw [roundQME_intCast, roundQME_intCast]
  · have h1 : snapPairQ a b = (a, b) := by
      unfold snapPairQ
      rw [if_neg hc]
    rw [h1]
    unfold snapPairQ
    rw [if_neg hc]

theorem snapEdgeF_not_touched (x : UV) (e : TruncEdge) (h : ℕ)
    (h0 : h ≠ e.heh0) (h1 : h ≠ e.heh1) : snapEdgeF x e h = x h := by
  unfold snapEdgeF
  split
  · rw [updUV_ne _ _ _ _ h1, updUV_ne _ _ _ _ h0]
  · rfl

theorem foldl_snap_not_touched (l : List TruncEdge) (h : ℕ)
    (hdisj : ∀ e ∈ l, h ≠ e.heh0 ∧ h ≠ e.heh1) :
    ∀ x : UV, (l.foldl snapEdgeF x) h = x h := by
  induction l with
  | nil => intro x; rfl
  | cons f t ih =>
      intro x
      simp only [List.foldl]
      rw [ih (fun e he => hdisj e (List.mem_cons_of_mem f he))]
      exact snapEdgeF_not_touched x f h (hdisj f (List.mem_cons_self f t)).1
        (hdisj f (List.mem_cons_self f t)).2

theorem snapEdgeF_vals (x : UV) (e : TruncEdge)
    (hrel : (e.isBoundaryE && e.selOrFeat) = true) (h01 : e.heh0 ≠ e.heh1) :
    (snapEdgeF x e) e.heh0 =
      ((snapPairQ (x e.heh0).1 (x e.heh1).1).1, (snapPairQ (x e.heh0).2 (x e.heh1).2).1) ∧
    (snapEdgeF x e) e.heh1 =
      ((snapPairQ (x e.heh0).1 (x e.heh1).1).2, (snapPairQ (x e.heh0).2 (x e.heh1).2).2) := by
  unfold snapEdgeF
  rw [hrel]
  constructor
  · rw [if_pos rfl]
    rw [updUV_ne _ _ _ _ h01, updUV_self]
  · rw [if_pos rfl]
    rw [updUV_self]

theorem snapEdgeF_reads (x x' : UV) (e : TruncEdge)
    (he0 : x' e.heh0 = x e.heh0) (he1 : x' e.heh1 = x e.heh1)
    (h01 : e.heh0 ≠ e.heh1) :
    (snapEdgeF x' e) e.heh0 = (snapEdgeF x e) e.heh0 ∧
    (snapEdgeF x' e) e.heh1 = (snapEdgeF x e) e.heh1 := by
  by_cases hrel : (e.isBoundaryE && e.selOrFeat) = true
  · obtain ⟨a1, b1⟩ := snapEdgeF_vals x e hrel h01
    obtain ⟨a2, b2⟩ := snapEdgeF_vals x' e hrel h01
    rw [a1, b1, a2, b2, he0, he1]
    exact ⟨rfl, rfl⟩
  · have hx : snapEdgeF x e = x := by
      unfold snapEdgeF
      rw [if_neg hrel]
    have hx' : snapEdgeF x' e = x' := by
      unfold snapEdgeF
      rw [if_neg hrel]
    rw [hx, hx', he0, he1]
    exact ⟨rfl, rfl⟩

theorem foldl_snap_at (l : List TruncEdge) (e : TruncEdge)
    (hmem : e ∈ l)
    (hpw : l.Pairwise (fun e1 e2 => e1.heh0 ≠ e2.heh0 ∧ e1.heh0 ≠ e2.heh1 ∧
      e1.heh1 ≠ e2.heh0 ∧ e1.heh1 ≠ e2.heh1))
    (h01 : e.heh0 ≠ e.heh1) :
    ∀ x : UV, (l.foldl snapEdgeF x) e.heh0 = (snapEdgeF x e) e.heh0 ∧
      (l.foldl snapEdgeF x) e.heh1 = (snapEdgeF x e) e.heh1 := by
  induction l with
  | nil => simp at hmem
  | cons f t ih =>
      intro x
      rcases List.pairwise_cons.mp hpw with ⟨hf, hpw'⟩
      simp only [List.foldl]
      cases hmem with
      | head =>
          constructor
          · exact foldl_snap_not_touched t e.heh0
              (fun e' he' => ⟨(hf e' he').1, (hf e' he').2.1⟩) _
          · exact foldl_snap_not_touched t e.heh1
              (fun e' he' => ⟨(hf e' he').2.2.1, (hf e' he').2.2.2⟩) _
      | tail _ hmem2 =>
          have hft := hf e hmem2
          have he0 : (snapEdgeF x f) e.heh0 = x e.heh0 :=
            snapEdgeF_not_touched x f e.heh0 (Ne.symm hft.1) (Ne.symm hft.2.2.1)
          have he1 : (snapEdgeF x f) e.heh1 = x e.heh1 :=
            snapEdgeF_not_touched x f e.heh1 (Ne.symm hft.2.1) (Ne.symm hft.2.2.2)
          obtain ⟨r0, r1⟩ := ih hmem2 hpw' (snapEdgeF x f)
          obtain ⟨s0, s1⟩ := snapEdgeF_reads x (snapEdgeF x f) e he0 he1 h01
          exact ⟨r0.trans s0, r1.trans s1⟩

theorem snapEdgeF_fixed_of_snapped (x : UV) (e : TruncEdge) (h01 : e.heh0 ≠ e.heh1)
    (a b a2 b2 : ℚ)
    (h0 : x e.heh0 = ((snapPairQ a b).1, (snapPairQ a2 b2).1))
    (h1 : x e.heh1 = ((snapPairQ a b).2, (snapPairQ a2 b2).2)) :
    snapEdgeF x e = x := by
  by_cases hrel : (e.isBoundaryE && e.selOrFeat) = true
  · unfold snapEdgeF
    rw [hrel, if_pos rfl]
    simp only []
    rw [h0, h1]
    simp only []
    rw [snapPairQ_idem, snapPairQ_idem]
    rw [← h0, ← h1]
    rw [updUV_self_val, updUV_self_val]
  · unfold snapEdgeF
    rw [if_neg hrel]

end QEx

namespace QEx

theorem pv_eq_applyWrites (m : TruncMesh) (uv : UV) (v : VertexEntry)
    (a : ℕ) (rest : List ℕ) (hvi : v.incoming = a :: rest) :
    processVertex m uv v = applyWrites (vertexWrites m v (uv a)) uv := by
  simp only [processVertex, hvi]

theorem vertexWrites_keys_nodup (m : TruncMesh) (v : VertexEntry) (x : ℚ × ℚ)
    (a : ℕ) (rest : List ℕ) (hvi : v.incoming = a :: rest)
    (hnd : v.incoming.Nodup) :
    ((vertexWrites m v x).map Prod.fst).Nodup := by
  simp only [vertexWrites, hvi]
  simp only [List.map_cons, List.nodup_cons]
  rw [hvi] at hnd
  rcases List.nodup_cons.mp hnd with ⟨hna, hndr⟩
  constructor
  · intro hm
    exact hna (List.Sublist.mem hm (propagateF_keys_sublist m rest _))
  · exact List.Nodup.sublist (propagateF_keys_sublist m rest _) hndr

theorem vertexWrites_keys_mem (m : TruncMesh) (v : VertexEntry) (x : ℚ × ℚ)
    (a : ℕ) (rest : List ℕ) (pr : ℕ × (ℚ × ℚ)) (hvi : v.incoming = a :: rest)
    (hpr : pr ∈ vertexWrites m v x) : pr.1 ∈ v.incoming := by
  simp only [vertexWrites, hvi] at hpr
  rw [hvi]
  cases hpr with
  | head => exact List.mem_cons_self _ _
  | tail _ hmem =>
      have h2 : pr.1 ∈ (propagateF m rest (anchorVal m v x)).map Prod.fst :=
        List.mem_map_of_mem Prod.fst hmem
      exact List.mem_cons_of_mem _
        (List.Sublist.mem h2 (propagateF_keys_sublist m rest _))

theorem pv_fixed_snapHe (m : TruncMesh) (v : VertexEntry)
    (hnd : v.incoming.Nodup)
    (hav : ∀ a rest, v.incoming = a :: rest → relevantSnapHe m a → v.isBoundaryV = true)
    (hbv : ∀ h' ∈ v.incoming.tail, relevantSnapHe m h' → m.heBoundary h' = true)
    (h : ℕ) (hrel : relevantSnapHe m h) :
    ∀ x : UV, processVertex m x v h = x h := by
  intro x
  cases hvi : v.incoming with
  | nil =>
      unfold processVertex
      rw [hvi]
  | cons a rest =>
      by_cases hha : h = a
      · subst hha
        rw [processVertex_anchor m x v h rest hvi (by
          rw [hvi] at hnd
          exact (List.nodup_cons.mp hnd).1)]
        exact anchorVal_boundary m v (x h) (hav h rest hvi hrel)
      · rw [pv_eq_applyWrites m x v a rest hvi]
        apply applyWrites_not_mem
        simp only [vertexWrites, hvi, List.map_cons, List.mem_cons]
        push_neg
        refine ⟨hha, fun hmem => ?_⟩
        have hkb := propagateF_keys_not_boundary m rest _ h hmem
        have hmem2 : h ∈ rest :=
          List.Sublist.mem hmem (propagateF_keys_sublist m rest _)
        have hB := hbv h (by rw [hvi]; exact hmem2) hrel
        rw [hB] at hkb
        simp at hkb

theorem canonicalize_fixed_snapHe (m : TruncMesh)
    (Hnodup : ∀ v ∈ m.vertices, v.incoming.Nodup)
    (Ha : ∀ v ∈ m.vertices, ∀ a rest, v.incoming = a :: rest →
      relevantSnapHe m a → v.isBoundaryV = true)
    (Hb : ∀ v ∈ m.vertices, ∀ h' ∈ v.incoming.tail,
      relevantSnapHe m h' → m.heBoundary h' = true)
    (h : ℕ) (hrel : relevantSnapHe m h) :
    ∀ x : UV, canonicalize m x h = x h := by
  intro x
  unfold canonicalize
  exact foldl_pv_fixed m m.vertices h
    (fun w hw x' => pv_fixed_snapHe m w (Hnodup w hw) (Ha w hw) (Hb w hw) h hrel x') x

theorem foldl_pv_idem (m : TruncMesh) (l : List VertexEntry)
    (hpw : l.Pairwise (fun v w => ∀ h ∈ v.incoming, h ∉ w.incoming))
    (hnd : ∀ v ∈ l, v.incoming.Nodup) :
    ∀ uv : UV, l.foldl (processVertex m) (l.foldl (processVertex m) uv) =
      l.foldl (processVertex m) uv := by
  induction l with
  | nil => intro uv; rfl
  | cons v t ih =>
      intro uv
      rcases List.pairwise_cons.mp hpw with ⟨hvt, hpw'⟩
      have hndt : ∀ w ∈ t, w.incoming.Nodup :=
        fun w hw => hnd w (List.mem_cons_of_mem v hw)
      cases hvi : v.incoming with
      | nil =>
          have hid : ∀ x : UV, processVertex m x v = x := by
            intro x
            unfold processVertex
            rw [hvi]
          simp only [List.foldl, hid]
          exact ih hpw' hndt _
      | cons a rest =>
          have hndv := hnd v (List.mem_cons_self v t)
          have hand : a ∉ rest := by
            rw [hvi] at hndv
            exact (List.nodup_cons.mp hndv).1
          simp only [List.foldl]
          have hza : (t.foldl (processVertex m) (processVertex m uv v)) a =
              (processVertex m uv v) a := by
            apply foldl_pv_fixed
            intro w hw x
            exact processVertex_not_incoming m x w a
              (hvt w hw a (by rw [hvi]; exact List.mem_cons_self a rest))
          have hya : (processVertex m uv v) a = anchorVal m v (uv a) :=
            processVertex_anchor m uv v a rest hvi hand
          have hpvz : processVertex m (t.foldl (processVertex m) (processVertex m uv v)) v =
              t.foldl (processVertex m) (processVertex m uv v) := by
            funext h
            rw [pv_eq_applyWrites m _ v a rest hvi]
            rw [hza, hya, vertexWrites_anchorVal]
            apply applyWrites_eq_self
            intro pr hpr
            have hkm : pr.1 ∈ v.incoming :=
              vertexWrites_keys_mem m v (uv a) a rest pr hvi hpr
            have hzy : (t.foldl (processVertex m) (processVertex m uv v)) pr.1 =
                (processVertex m uv v) pr.1 := by
              apply foldl_pv_fixed
              intro w hw x
              exact processVertex_not_incoming m x w pr.1 (hvt w hw pr.1 hkm)
            rw [hzy]
            rw [pv_eq_applyWrites m uv v a rest hvi]
            exact applyWrites_lookup _ uv pr.1 pr.2
              (vertexWrites_keys_nodup m v (uv a) a rest hvi hndv) hpr
          rw [hpvz]
          exact ih hpw' hndt _

theorem canonicalize_idem (m : TruncMesh)
    (Hdisj : m.vertices.Pairwise (fun v w => ∀ h ∈ v.incoming, h ∉ w.incoming))
    (Hnodup : ∀ v ∈ m.vertices, v.incoming.Nodup) (uv : UV) :
    canonicalize m (canonicalize m uv) = canonicalize m uv :=
  foldl_pv_idem m m.vertices Hdisj Hnodup uv

end QEx

namespace QEx

theorem foldl_snap_id (l : List TruncEdge) (x : UV)
    (hfix : ∀ e ∈ l, snapEdgeF x e = x) : l.foldl snapEdgeF x = x := by
  induction l with
  | nil => rfl
  | cons f t ih =>
      simp only [List.foldl]
      rw [hfix f (List.mem_cons_self f t)]
      exact ih (fun e he => hfix e (List.mem_cons_of_mem f he))

/-- Claim C9: `consistent_truncation` is idempotent — with the transition
table already extracted, running it a second time on its own output leaves
the UV vector unchanged.  The hypotheses are well-formedness conditions of
the halfedge input mesh: each halfedge is incoming to exactly one vertex
(`Hdisj`, `Hnodup`), distinct edges own distinct halfedges (`Hedisj`,
`He01`), and — the OpenMesh invariant for valid boundary meshes — the
interior halfedge of a boundary edge is the anchor (first circulator
entry) of its boundary to-vertex while the boundary-side halfedge carries
no face (`Ha`, `Hb`). -/
theorem C9_consistent_truncation_idempotent (m : TruncMesh) (uv : UV)
    (Hnodup : ∀ v ∈ m.vertices, v.incoming.Nodup)
    (Hdisj : m.vertices.Pairwise (fun v w => ∀ h ∈ v.incoming, h ∉ w.incoming))
    (He01 : ∀ e ∈ m.edges, e.heh0 ≠ e.heh1)
    (Hedisj : m.edges.Pairwise (fun e1 e2 => e1.heh0 ≠ e2.heh0 ∧ e1.heh0 ≠ e2.heh1 ∧
      e1.heh1 ≠ e2.heh0 ∧ e1.heh1 ≠ e2.heh1))
    (Ha : ∀ v ∈ m.vertices, ∀ a rest, v.incoming = a :: rest →
      relevantSnapHe m a → v.isBoundaryV = true)
    (Hb : ∀ v ∈ m.vertices, ∀ h' ∈ v.incoming.tail,
      relevantSnapHe m h' → m.heBoundary h' = true) :
    consistent_truncation m (consistent_truncation m uv) =
      consistent_truncation m uv := by
  have hSy : boundarySnap m (consistent_truncation m uv) = consistent_truncation m uv := by
    unfold boundarySnap
    by_cases hst : m.hasEdgeStatus = true
    · rw [if_pos hst]
      apply foldl_snap_id
      intro e he
      by_cases hrel : (e.isBoundaryE && e.selOrFeat) = true
      · have h01 := He01 e he
        have hre := (Bool.and_eq_true _ _).mp hrel
        have hr0 : relevantSnapHe m e.heh0 := ⟨e, he, hre.1, hre.2, Or.inl rfl⟩
        have hr1 : relevantSnapHe m e.heh1 := ⟨e, he, hre.1, hre.2, Or.inr rfl⟩
        have hy0 : (consistent_truncation m uv) e.heh0 = (boundarySnap m uv) e.heh0 :=
          canonicalize_fixed_snapHe m Hnodup Ha Hb e.heh0 hr0 _
        have hy1 : (consistent_truncation m uv) e.heh1 = (boundarySnap m uv) e.heh1 :=
          canonicalize_fixed_snapHe m Hnodup Ha Hb e.heh1 hr1 _
        have hs : (boundarySnap m uv) e.heh0 = (snapEdgeF uv e) e.heh0 ∧
            (boundarySnap m uv) e.heh1 = (snapEdgeF uv e) e.heh1 := by
          unfold boundarySnap
          rw [if_pos hst]
          exact foldl_snap_at m.edges e he Hedisj h01 uv
        obtain ⟨hv0, hv1⟩ := snapEdgeF_vals uv e hrel h01
        apply snapEdgeF_fixed_of_snapped _ e h01
          (uv e.heh0).1 (uv e.heh1).1 (uv e.heh0).2 (uv e.heh1).2
        · rw [hy0, hs.1, hv0]
        · rw [hy1, hs.2, hv1]
      · unfold snapEdgeF
        rw [if_neg hrel]
    · rw [if_neg hst]
  show canonicalize m (boundarySnap m (consistent_truncation m uv)) =
    consistent_truncation m uv
  rw [hSy]
  show canonicalize m (canonicalize m (boundarySnap m uv)) = consistent_truncation m uv
  rw [canonicalize_idem m Hdisj Hnodup (boundarySnap m uv)]
  rfl

/-- Witness for C9: a one-vertex mesh without status flags; truncating
twice equals truncating once. -/
theorem C9_consistent_truncation_idempotent_witness :
    consistent_truncation
      ⟨[⟨[5], false, 8⟩], [], false, (fun _ => false), (fun h => h), (fun _ => TF.mk 1 1 0)⟩
      (consistent_truncation
        ⟨[⟨[5], false, 8⟩], [], false, (fun _ => false), (fun h => h), (fun _ => TF.mk 1 1 0)⟩
        (fun _ => (0, 0))) =
    consistent_truncation
      ⟨[⟨[5], false, 8⟩], [], false, (fun _ => false), (fun h => h), (fun _ => TF.mk 1 1 0)⟩
      (fun _ => (0, 0)) := by
  apply C9_consistent_truncation_idempotent
  · intro v hv
    simp only [List.mem_singleton] at hv
    rw [hv]
    simp
  · simp
  · intro e he
    simp at he
  · simp
  · intro v hv a rest heq hrel
    rcases hrel with ⟨e, he, _⟩
    simp at he
  · intro v hv h' hh' hrel
    rcases hrel with ⟨e, he, _⟩
    simp at he

end QEx
